import Mathlib

/-!
Shallow embedding of the multitrack audio visualizer's extraction, rendering,
mixing and export-driver arithmetic.

Float32 samples and JavaScript number arithmetic are modelled over `ℚ`
(every float is a rational; rounding noise is out of scope).  The spectrum
pipeline additionally needs `Real.cos`/`Real.sin`/`Real.sqrt`, so its values
live in `ℝ` (with the rational sample data coerced in).  `Math.floor` becomes
`Int.floor`, `Math.ceil` becomes `Int.ceil`, and JavaScript loops become folds
or `List.range` maps over the same index ranges.
-/

namespace MAV

/-- Decoded audio data handed to the core: per-channel sample lists plus a
sample rate.  Mirrors the shape shared by the Web Audio `AudioBuffer` and the
CLI adapter's `CLIAudioBuffer` (`cli/adapters/CLIAudioTrack.ts`). -/
structure AudioBuffer where
  channels : List (List ℚ)
  sampleRate : ℚ
deriving DecidableEq

/-- `getChannelData(channel)`: the samples of one channel (empty if absent). -/
def AudioBuffer.getChannelData (b : AudioBuffer) (c : ℕ) : List ℚ :=
  b.channels.getD c []

/-- `buffer.length`: frame count.  The CLI adapter computes it as
`channelData[0].length` (`CLIAudioEngine.ts` line 38). -/
def AudioBuffer.length (b : AudioBuffer) : ℕ :=
  (b.getChannelData 0).length

/-- `buffer.duration = length / sampleRate` (`CLIAudioEngine.ts` line 35). -/
def AudioBuffer.duration (b : AudioBuffer) : ℚ :=
  (b.length : ℚ) / b.sampleRate

/-- `buffer.numberOfChannels` (`CLIAudioEngine.ts` line 37). -/
def AudioBuffer.numberOfChannels (b : AudioBuffer) : ℕ :=
  b.channels.length

/-- A track: its decoded buffer plus the visual attributes the core reads.
Only `opacity` feeds arithmetic (mixer gain); `id`/`name`/`color` are
presentation strings irrelevant to every claim, so they are omitted. -/
structure AudioTrack where
  buffer : AudioBuffer
  opacity : ℚ
deriving DecidableEq

instance : Inhabited AudioBuffer := ⟨⟨[], 0⟩⟩

instance : Inhabited AudioTrack := ⟨⟨default, 0⟩⟩

/-- `track.duration` getter (`AudioTrack.ts` lines 21-23). -/
def AudioTrack.duration (t : AudioTrack) : ℚ := t.buffer.duration

/-- `track.sampleRate` getter (`AudioTrack.ts` lines 25-27). -/
def AudioTrack.sampleRate (t : AudioTrack) : ℚ := t.buffer.sampleRate

/-- `track.numberOfChannels` getter (`AudioTrack.ts` lines 29-31). -/
def AudioTrack.numberOfChannels (t : AudioTrack) : ℕ :=
  t.buffer.numberOfChannels

/-! ### Adaptive time window (`AudioTrack.ts` lines 78-97, duplicated at 179-194) -/

/-- `startTime` of the extraction window: `0` while
`currentTime < windowDuration`, else `currentTime - windowDuration`. -/
def windowStartTime (currentTime windowDuration : ℚ) : ℚ :=
  if currentTime < windowDuration then 0 else currentTime - windowDuration

/-- `endTime` of the extraction window: `min windowDuration duration` while
`currentTime < windowDuration`, else `currentTime`. -/
def windowEndTime (currentTime windowDuration duration : ℚ) : ℚ :=
  if currentTime < windowDuration then min windowDuration duration
  else currentTime

/-- `startSample = Math.floor(startTime * sampleRate)` for a track. -/
def windowStartSample (t : AudioTrack) (currentTime windowDuration : ℚ) : ℤ :=
  ⌊windowStartTime currentTime windowDuration * t.sampleRate⌋

/-- `endSample = Math.min(Math.floor(endTime * sampleRate), channelData.length)`
for a track. -/
def windowEndSample (t : AudioTrack) (currentTime windowDuration : ℚ) : ℤ :=
  min ⌊windowEndTime currentTime windowDuration t.duration * t.sampleRate⌋
    ((t.buffer.getChannelData 0).length : ℤ)

/-! ### Waveform extraction (`AudioTrack.ts` lines 69-131) -/

/-- The integer indices `s, s+1, ..., e-1` visited by `for (j = s; j < e; j++)`. -/
def intRange (s e : ℤ) : List ℤ :=
  (List.range (e - s).toNat).map (fun t : ℕ => s + (t : ℤ))

/-- Inner peak loop (`AudioTrack.ts` lines 112-120): running maximum of
`Math.abs(channelData[j])` over in-bounds `j` in `[s, e)`, starting from `0`. -/
def bucketPeak (data : List ℚ) (s e : ℤ) : ℚ :=
  (intRange s e).foldl
    (fun m j =>
      if 0 ≤ j ∧ j < (data.length : ℤ) then max m |data.getD j.toNat 0| else m)
    0

/-- One output position of the moving-average pass (`AudioTrack.ts` lines
147-161): the loop accumulates `(sum, count)` over offsets
`-halfWindow ... halfWindow`, adding only in-bounds neighbours, then divides. -/
def smoothAt (original : List ℚ) (halfWindow i : ℕ) : ℚ :=
  let acc :=
    ((List.range (2 * halfWindow + 1)).map
        (fun o : ℕ => (o : ℤ) - (halfWindow : ℤ))).foldl
      (fun (p : ℚ × ℕ) j =>
        let index : ℤ := (i : ℤ) + j
        if 0 ≤ index ∧ index < (original.length : ℤ) then
          (p.1 + original.getD index.toNat 0, p.2 + 1)
        else p)
      (0, 0)
  if 0 < acc.2 then acc.1 / (acc.2 : ℚ) else original.getD i 0

/-- `applySmoothingFilter` (`AudioTrack.ts` lines 138-162): centered moving
average; `windowSize = 1 + level * 2`, `halfWindow = Math.floor(windowSize/2)`;
reads from a copy of the input, writes every index. -/
def applySmoothingFilter (waveform : List ℚ) (level : ℕ) : List ℚ :=
  let windowSize := 1 + level * 2
  let halfWindow := windowSize / 2
  (List.range waveform.length).map (smoothAt waveform halfWindow)

/-- Downsampling stage shared by the time-window entry point and the
spec-level fixed-window extraction: everything in
`getWaveformDataForTimeWindow` after the sample bounds are known
(`AudioTrack.ts` lines 97-130). -/
def waveformFromSamples (data : List ℚ) (startSample endSample : ℤ)
    (targetWidth smoothingLevel : ℕ) : List ℚ :=
  let totalSamples := endSample - startSample
  if totalSamples ≤ 0 then List.replicate targetWidth 0
  else
    let samplesPerPixel : ℚ := (totalSamples : ℚ) / (targetWidth : ℚ)
    let waveform := (List.range targetWidth).map (fun i : ℕ =>
      bucketPeak data (startSample + ⌊(i : ℚ) * samplesPerPixel⌋)
        (min (startSample + ⌊((i : ℚ) + 1) * samplesPerPixel⌋) endSample))
    if 0 < smoothingLevel then applySmoothingFilter waveform smoothingLevel
    else waveform

/-- `getWaveformDataForTimeWindow` (`AudioTrack.ts` lines 69-131). -/
def getWaveformDataForTimeWindow (t : AudioTrack)
    (currentTime windowDuration : ℚ) (targetWidth smoothingLevel : ℕ) :
    List ℚ :=
  waveformFromSamples (t.buffer.getChannelData 0)
    (windowStartSample t currentTime windowDuration)
    (windowEndSample t currentTime windowDuration) targetWidth smoothingLevel

/-- Spec §4.1 reference extractor: waveform extraction over an explicitly
given time window `[startTime, endTime]`, with the spec's index conversion
`startSample = ⌊startTime*sampleRate⌋`,
`endSample = min ⌊endTime*sampleRate⌋ totalSamples`. -/
def extractWaveformAtWindow (t : AudioTrack) (startTime endTime : ℚ)
    (targetWidth smoothingLevel : ℕ) : List ℚ :=
  waveformFromSamples (t.buffer.getChannelData 0)
    ⌊startTime * t.sampleRate⌋
    (min ⌊endTime * t.sampleRate⌋ ((t.buffer.getChannelData 0).length : ℤ))
    targetWidth smoothingLevel

/-! ### Spectrum extraction (`AudioTrack.ts` lines 171-275)

The FFT mixes the rational samples with `Math.cos`/`Math.sin`/`Math.sqrt`,
so this part of the pipeline is valued in `ℝ`/`ℂ`. -/

/-- One twiddle factor of the Cooley-Tukey loop (`AudioTrack.ts` lines
258-260): `angle = -2πk/N`, packaged as the complex number
`(cos angle, sin angle)`.  Multiplying by it is exactly the
`tReal`/`tImag` arithmetic of lines 265-266. -/
noncomputable def twiddle (N k : ℕ) : ℂ :=
  ⟨Real.cos (-2 * Real.pi * k / N), Real.sin (-2 * Real.pi * k / N)⟩

/-- The recursive `fft` (`AudioTrack.ts` lines 237-275), indexed by the
exponent: `fftPow n input k` is complex output entry `k` (the pair
`output[2k], output[2k+1]`) of the source's `fft` on the length-`2^n` array
`input`.  The source splits into even/odd halves and recombines with
`output[k] = even[k] + t`, `output[k + N/2] = even[k] - t`,
`t = twiddle N k * odd[k]`; it is only ever called with power-of-two lengths
(`fftSize` precondition), which the exponent index makes structural. -/
noncomputable def fftPow : ℕ → (ℕ → ℝ) → ℕ → ℂ
  | 0, input, k => if k = 0 then ((input 0 : ℝ) : ℂ) else 0
  | n + 1, input, k =>
      let evenFFT := fftPow n (fun i => input (2 * i))
      let oddFFT := fftPow n (fun i => input (2 * i + 1))
      if k < 2 ^ n then
        evenFFT k + twiddle (2 ^ (n + 1)) k * oddFFT k
      else
        evenFFT (k - 2 ^ n) - twiddle (2 ^ (n + 1)) (k - 2 ^ n) * oddFFT (k - 2 ^ n)

/-- The windowed, resampled input handed to the FFT
(`AudioTrack.ts` lines 201-216): nearest-index picking
`channelData[startSample + Math.floor(i * samplesPerPixel)]` (a sample is read
only when the index is in bounds, otherwise the slot keeps its `0` fill),
then the Hann factor `0.5 * (1 - cos(2πi/(fftSize-1)))`. -/
noncomputable def audioWindowAt (data : List ℚ) (startSample : ℤ)
    (samplesPerPixel : ℚ) (fftSize i : ℕ) : ℝ :=
  let sampleIndex : ℤ := startSample + ⌊(i : ℚ) * samplesPerPixel⌋
  (if 0 ≤ sampleIndex ∧ sampleIndex < (data.length : ℤ) then
      ((data.getD sampleIndex.toNat 0 : ℚ) : ℝ)
    else 0) *
    (1 / 2 * (1 - Real.cos (2 * Real.pi * i / ((fftSize : ℝ) - 1))))

/-- Spectrum stage shared by the time-window entry point and the spec-level
fixed-window extraction: everything in `getFrequencySpectrumForTimeWindow`
after the sample bounds are known (`AudioTrack.ts` lines 194-229).
`fftSize` is `2 ^ log2 fftSize` at the power-of-two call sites. -/
noncomputable def spectrumFromSamples (data : List ℚ)
    (startSample endSample : ℤ) (fftSize : ℕ) : List ℝ :=
  let totalSamples := endSample - startSample
  if totalSamples < (fftSize : ℤ) then List.replicate (fftSize / 2) 0
  else
    let samplesPerPixel : ℚ := (totalSamples : ℚ) / (fftSize : ℚ)
    let spectrum : ℕ → ℂ :=
      fftPow (Nat.log2 fftSize)
        (audioWindowAt data startSample samplesPerPixel fftSize)
    (List.range (fftSize / 2)).map (fun i =>
      Real.sqrt ((spectrum i).re ^ 2 + (spectrum i).im ^ 2))

/-- `getFrequencySpectrumForTimeWindow` (`AudioTrack.ts` lines 171-230). -/
noncomputable def getFrequencySpectrumForTimeWindow (t : AudioTrack)
    (currentTime windowDuration : ℚ) (fftSize : ℕ) : List ℝ :=
  spectrumFromSamples (t.buffer.getChannelData 0)
    (windowStartSample t currentTime windowDuration)
    (windowEndSample t currentTime windowDuration) fftSize

/-- Spec §4.2 reference extractor: spectrum extraction over an explicitly
given time window, with the same index conversion as §4.1. -/
noncomputable def extractSpectrumAtWindow (t : AudioTrack)
    (startTime endTime : ℚ) (fftSize : ℕ) : List ℝ :=
  spectrumFromSamples (t.buffer.getChannelData 0)
    ⌊startTime * t.sampleRate⌋
    (min ⌊endTime * t.sampleRate⌋ ((t.buffer.getChannelData 0).length : ℤ))
    fftSize

/-- The unit-circle exponential `e^(i·r)` for a real angle `r`. -/
noncomputable def cexpI (r : ℝ) : ℂ :=
  Complex.exp ((r : ℂ) * Complex.I)

/-- Spec §4.2's textbook reference transform: the discrete Fourier transform
`X_k = Σ_j x_j · e^(-2πi·kj/N)`. -/
noncomputable def dft (N : ℕ) (x : ℕ → ℂ) (k : ℕ) : ℂ :=
  ∑ j ∈ Finset.range N, x j * cexpI (-2 * Real.pi * k * j / N)

/-- Spec-side spectrum: nearest-index resample, Hann window, textbook DFT,
then magnitudes `sqrt(re² + im²)` on bins `[0, fftSize/2)`. -/
noncomputable def spectrumViaDFT (t : AudioTrack)
    (currentTime windowDuration : ℚ) (fftSize : ℕ) : List ℝ :=
  let data := t.buffer.getChannelData 0
  let startSample := windowStartSample t currentTime windowDuration
  let endSample := windowEndSample t currentTime windowDuration
  let samplesPerPixel : ℚ := ((endSample - startSample : ℤ) : ℚ) / (fftSize : ℚ)
  let x : ℕ → ℂ := fun j =>
    ((audioWindowAt data startSample samplesPerPixel fftSize j : ℝ) : ℂ)
  (List.range (fftSize / 2)).map (fun k =>
    Real.sqrt ((dft fftSize x k).re ^ 2 + (dft fftSize x k).im ^ 2))

/-! ### Renderer arithmetic (`WaveformRenderer.ts`) -/

/-- Progressive-reveal bound (`WaveformRenderer.ts` lines 157-165 and
248-255): `maxX = Math.floor((currentTime/windowDuration) * width)` while
`currentTime < windowDuration`, else the full `width`. -/
def revealMaxX (currentTime windowDuration : ℚ) (width : ℕ) : ℤ :=
  if currentTime < windowDuration then
    ⌊currentTime / windowDuration * (width : ℚ)⌋
  else (width : ℤ)

/-- Pixel columns that receive waveform strokes in
`renderTrackRealtimeWithAmplitude` (`WaveformRenderer.ts` line 167):
`for (x = 0; x < maxX && x < waveformData.length; x++)`. -/
def drawnColumnsRealtime (t : AudioTrack) (currentTime windowDuration : ℚ)
    (width smoothingLevel : ℕ) : List ℕ :=
  let waveformData :=
    getWaveformDataForTimeWindow t currentTime windowDuration width
      smoothingLevel
  List.range
    (min (revealMaxX currentTime windowDuration width)
      (waveformData.length : ℤ)).toNat

/-- Pixel columns visited by the additive layout's per-column loop
(`WaveformRenderer.ts` line 258):
`for (x = 0; x < maxX && x < dimensions.width; x++)`. -/
def drawnColumnsAdditive (currentTime windowDuration : ℚ) (width : ℕ) :
    List ℕ :=
  List.range
    (min (revealMaxX currentTime windowDuration width) (width : ℤ)).toNat

/-- `calculateGlobalMaxAmplitude` (`WaveformRenderer.ts` lines 99-121): the
running maximum of every track's *unsmoothed* waveform values (the call at
line 108 passes no `smoothingLevel`, so it defaults to `0`), with the
`globalMax > 0 ? globalMax : 1.0` fallback. -/
def calculateGlobalMaxAmplitude (tracks : List AudioTrack)
    (currentTime windowDuration : ℚ) (width : ℕ) : ℚ :=
  let globalMax := tracks.foldl
    (fun g tr =>
      (getWaveformDataForTimeWindow tr currentTime windowDuration width
          0).foldl (fun g' v => if g' < v then v else g') g)
    0
  if 0 < globalMax then globalMax else 1

/-- The amplitude drawn for one track at column `x` in
`renderTrackRealtimeWithAmplitude` under `normalized` amplitude mode
(`WaveformRenderer.ts` lines 167-173): the (possibly smoothed) waveform value
divided by the global maximum when that maximum is positive. -/
def normalizedDrawnAmplitude (tr : AudioTrack) (tracks : List AudioTrack)
    (currentTime windowDuration : ℚ) (width smoothingLevel x : ℕ) : ℚ :=
  let globalMaxAmplitude :=
    calculateGlobalMaxAmplitude tracks currentTime windowDuration width
  let amplitude :=
    (getWaveformDataForTimeWindow tr currentTime windowDuration width
        smoothingLevel).getD x 0
  if 0 < globalMaxAmplitude then amplitude / globalMaxAmplitude else amplitude

/-- Per-column amplitude collection of the additive layout
(`WaveformRenderer.ts` lines 259-270): each track's waveform value at `x`
(`|| 0` when out of range), divided by `globalMaxAmplitude` when normalized
mode is on and the maximum is positive. -/
def columnAmplitudes (tracks : List AudioTrack)
    (currentTime windowDuration : ℚ) (width smoothingLevel : ℕ)
    (normalized : Bool) (globalMaxAmplitude : ℚ) (x : ℕ) : List ℚ :=
  tracks.map (fun tr =>
    let amplitude :=
      (getWaveformDataForTimeWindow tr currentTime windowDuration width
          smoothingLevel).getD x 0
    if normalized ∧ 0 < globalMaxAmplitude then amplitude / globalMaxAmplitude
    else amplitude)

/-- Clipping-prevention scaling of one additive column
(`WaveformRenderer.ts` lines 272-284): `scaleFactor = 1/totalAmplitude` when
the sum exceeds `1.0`, applied to every amplitude. -/
def additiveColumnScaled (amps : List ℚ) : List ℚ :=
  let totalAmplitude := amps.foldl (· + ·) 0
  let scaleFactor : ℚ := if 1 < totalAmplitude then 1 / totalAmplitude else 1
  amps.map (· * scaleFactor)

/-- The segment heights actually drawn for one additive column half
(`WaveformRenderer.ts` lines 283-303; the lower half at 305-327 uses the same
heights): `segmentHeight = scaledAmplitude * maxAmplitude`, skipped unless
`segmentHeight > 0.5`.  `currentY` advances by each drawn height, so the
stacked extent above (resp. below) center is the sum of this list. -/
def additiveColumnDrawnHeights (amps : List ℚ) (maxAmplitude : ℚ) : List ℚ :=
  ((additiveColumnScaled amps).map (· * maxAmplitude)).filter
    (fun h => 1 / 2 < h)

/-! ### Audio mixer (`cli/adapters/CLIAudioEngine.ts` lines 96-153) -/

/-- `getDuration` (`CLIAudioEngine.ts` lines 96-101):
`Math.max(...durations)`, `0` with no tracks. -/
def engineDuration (tracks : List AudioTrack) : ℚ :=
  match tracks with
  | [] => 0
  | t :: ts => ts.foldl (fun m tr => max m tr.duration) t.duration

/-- Mixed output length `numSamples = Math.ceil(duration * sampleRate)`
(`CLIAudioEngine.ts` line 114), with `sampleRate = tracks[0].sampleRate`. -/
def mixNumSamples (tracks : List AudioTrack) : ℕ :=
  ⌈engineDuration tracks * (tracks.headD default).sampleRate⌉.toNat

/-- The right-channel source of one track (`CLIAudioEngine.ts` line 127):
channel 1, or channel 0 again when mono. -/
def rightChannelData (t : AudioTrack) : List ℚ :=
  if 1 < t.numberOfChannels then t.buffer.getChannelData 1
  else t.buffer.getChannelData 0

/-- Accumulated (pre-normalization) left sample at index `i`
(`CLIAudioEngine.ts` lines 121-135): each track adds
`channel0[i] * track.opacity` while `i < trackSamples`. -/
def mixRawLeftAt (tracks : List AudioTrack) (i : ℕ) : ℚ :=
  tracks.foldl
    (fun acc t =>
      acc + (if i < t.buffer.length then
          (t.buffer.getChannelData 0).getD i 0 * t.opacity
        else 0))
    0

/-- Accumulated (pre-normalization) right sample at index `i`. -/
def mixRawRightAt (tracks : List AudioTrack) (i : ℕ) : ℚ :=
  tracks.foldl
    (fun acc t =>
      acc + (if i < t.buffer.length then
          (rightChannelData t).getD i 0 * t.opacity
        else 0))
    0

/-- The pre-normalization left channel as a buffer of `numSamples` entries. -/
def mixRawLeft (tracks : List AudioTrack) : List ℚ :=
  (List.range (mixNumSamples tracks)).map (mixRawLeftAt tracks)

/-- The pre-normalization right channel as a buffer of `numSamples` entries. -/
def mixRawRight (tracks : List AudioTrack) : List ℚ :=
  (List.range (mixNumSamples tracks)).map (mixRawRightAt tracks)

/-- Peak scan (`CLIAudioEngine.ts` lines 138-141): running maximum of
`|left[i]|` and `|right[i]|` over all `i < numSamples`, from `0`. -/
def mixPeak (tracks : List AudioTrack) : ℚ :=
  (List.range (mixNumSamples tracks)).foldl
    (fun m i =>
      max m (max |(mixRawLeft tracks).getD i 0| |(mixRawRight tracks).getD i 0|))
    0

/-- Mixer result record: `{ left, right, sampleRate }`. -/
structure MixResult where
  left : List ℚ
  right : List ℚ
  sampleRate : ℚ
deriving DecidableEq

/-- `mixTracks` (`CLIAudioEngine.ts` lines 107-153).  The source throws on an
empty track list (modelled as `none`); otherwise it accumulates, scans the
peak, and multiplies every sample by `normalizeGain = 1/peak` only when the
peak exceeds `1.0`. -/
def mixTracks (tracks : List AudioTrack) : Option MixResult :=
  if tracks = [] then none
  else
    let left := mixRawLeft tracks
    let right := mixRawRight tracks
    let maxAmplitude := mixPeak tracks
    if 1 < maxAmplitude then
      some ⟨left.map (· * (1 / maxAmplitude)),
        right.map (· * (1 / maxAmplitude)), (tracks.headD default).sampleRate⟩
    else some ⟨left, right, (tracks.headD default).sampleRate⟩

/-! ### Offline frame driver (`src/export/VideoExporter.ts` lines 159-202) -/

/-- The `currentTime` values fed to the compositor by `captureFrames`, one per
captured frame: `totalFrames = Math.ceil(duration * fps)` iterations with
`time = i / fps`, recomputed from the index each iteration. -/
def captureFrameTimes (duration fps : ℚ) : List ℚ :=
  (List.range ⌈duration * fps⌉.toNat).map (fun i : ℕ => (i : ℚ) / fps)

/-! ### Spec-side auxiliary definitions -/

/-- Variance as specified for the smoothing test (§4.1, and the repository's
`AudioTrack.test.ts` helper): mean of squared deviations from the mean. -/
def variance (l : List ℚ) : ℚ :=
  let mean := l.sum / (l.length : ℚ)
  ((l.map (fun v => (v - mean) ^ 2)).sum) / (l.length : ℚ)

/-- Sample track used to instantiate theorems with hypotheses: five samples
`0, 1, 0, 0, 1` at 5 Hz (1 second long). -/
def demoTrack : AudioTrack := ⟨⟨[[0, 1, 0, 0, 1]], 5⟩, 7 / 10⟩

/-! ### Generic list lemmas -/

theorem foldl_addf_eq_sum {α : Type} (l : List α) (f : α → ℚ) (a : ℚ) :
    l.foldl (fun acc x => acc + f x) a = a + (l.map f).sum := by
  induction l generalizing a with
  | nil => simp
  | cons x xs ih => simp only [List.foldl_cons, List.map_cons, List.sum_cons, ih]; ring

theorem mem_intRange {s e j : ℤ} : j ∈ intRange s e ↔ s ≤ j ∧ j < e := by
  unfold intRange
  simp only [List.mem_map, List.mem_range]
  constructor
  · rintro ⟨u, hu, rfl⟩
    omega
  · rintro ⟨h1, h2⟩
    exact ⟨(j - s).toNat, by omega, by omega⟩

theorem length_applySmoothingFilter (w : List ℚ) (level : ℕ) :
    (applySmoothingFilter w level).length = w.length := by
  simp [applySmoothingFilter]

theorem length_waveformFromSamples (data : List ℚ) (s e : ℤ)
    (targetWidth smoothingLevel : ℕ) :
    (waveformFromSamples data s e targetWidth smoothingLevel).length =
      targetWidth := by
  unfold waveformFromSamples
  by_cases h : e - s ≤ 0
  · simp [h]
  · by_cases h2 : 0 < smoothingLevel <;>
      simp [h, h2, length_applySmoothingFilter]

theorem length_getWaveformDataForTimeWindow (t : AudioTrack)
    (currentTime windowDuration : ℚ) (targetWidth smoothingLevel : ℕ) :
    (getWaveformDataForTimeWindow t currentTime windowDuration targetWidth
        smoothingLevel).length = targetWidth :=
  length_waveformFromSamples _ _ _ _ _

/-! ### Claim C1 -/

/-- C1 (adaptive window rule): for `windowDuration > 0`, while
`currentTime < windowDuration` both extractors compute exactly the
fixed-window extraction over `[0, min windowDuration duration]` — hence
independently of `currentTime`'s exact value — and otherwise the extraction
over `[currentTime - windowDuration, currentTime]`; the fixed-window
extractors convert times by `startSample = ⌊startTime·sampleRate⌋`,
`endSample = min ⌊endTime·sampleRate⌋ totalSamples`. -/
theorem adaptive_window_rule (t : AudioTrack)
    (currentTime windowDuration : ℚ) (targetWidth smoothingLevel fftSize : ℕ)
    (hwd : 0 < windowDuration) :
    (currentTime < windowDuration →
      getWaveformDataForTimeWindow t currentTime windowDuration targetWidth
          smoothingLevel =
        extractWaveformAtWindow t 0 (min windowDuration t.duration)
          targetWidth smoothingLevel ∧
      getFrequencySpectrumForTimeWindow t currentTime windowDuration fftSize =
        extractSpectrumAtWindow t 0 (min windowDuration t.duration) fftSize) ∧
    (windowDuration ≤ currentTime →
      getWaveformDataForTimeWindow t currentTime windowDuration targetWidth
          smoothingLevel =
        extractWaveformAtWindow t (currentTime - windowDuration) currentTime
          targetWidth smoothingLevel ∧
      getFrequencySpectrumForTimeWindow t currentTime windowDuration fftSize =
        extractSpectrumAtWindow t (currentTime - windowDuration) currentTime
          fftSize) := by
  constructor
  · intro hct
    constructor
    · unfold getWaveformDataForTimeWindow extractWaveformAtWindow
        windowStartSample windowEndSample windowStartTime windowEndTime
      rw [if_pos hct, if_pos hct]
    · unfold getFrequencySpectrumForTimeWindow extractSpectrumAtWindow
        windowStartSample windowEndSample windowStartTime windowEndTime
      rw [if_pos hct, if_pos hct]
  · intro hct
    have hlt : ¬ currentTime < windowDuration := not_lt.mpr hct
    constructor
    · unfold getWaveformDataForTimeWindow extractWaveformAtWindow
        windowStartSample windowEndSample windowStartTime windowEndTime
      rw [if_neg hlt, if_neg hlt]
    · unfold getFrequencySpectrumForTimeWindow extractSpectrumAtWindow
        windowStartSample windowEndSample windowStartTime windowEndTime
      rw [if_neg hlt, if_neg hlt]

/-- Witness for C1 at `demoTrack`, `currentTime = 1/2 < 1 = windowDuration`. -/
theorem adaptive_window_rule_witness :
    (0 : ℚ) < 1 ∧ (1 : ℚ) / 2 < 1 ∧
      getWaveformDataForTimeWindow demoTrack (1 / 2) 1 4 0 =
        extractWaveformAtWindow demoTrack 0 (min 1 demoTrack.duration) 4 0 :=
  ⟨by norm_num, by norm_num,
    ((adaptive_window_rule demoTrack (1 / 2) 1 4 0 8 (by norm_num)).1
        (by norm_num)).1⟩

/-! ### Claim C9 -/

/-- C9 (insufficient data is zero-filled, never throws): a degenerate window
(`endSample - startSample ≤ 0`) makes the waveform extractor return exactly
`targetWidth` zeros, and a window holding fewer than `fftSize` samples makes
the spectrum extractor return exactly `fftSize/2` zeros.  Both extractors are
total functions of their inputs, so no input makes them fail. -/
theorem insufficient_data_zero_fill (t : AudioTrack)
    (currentTime windowDuration : ℚ) (targetWidth smoothingLevel fftSize : ℕ) :
    (windowEndSample t currentTime windowDuration -
          windowStartSample t currentTime windowDuration ≤ 0 →
      getWaveformDataForTimeWindow t currentTime windowDuration targetWidth
          smoothingLevel = List.replicate targetWidth 0) ∧
    (windowEndSample t currentTime windowDuration -
          windowStartSample t currentTime windowDuration < (fftSize : ℤ) →
      getFrequencySpectrumForTimeWindow t currentTime windowDuration fftSize =
        List.replicate (fftSize / 2) 0) := by
  constructor
  · intro h
    unfold getWaveformDataForTimeWindow waveformFromSamples
    rw [if_pos h]
  · intro h
    unfold getFrequencySpectrumForTimeWindow spectrumFromSamples
    rw [if_pos h]

/-- Witness for C9 at `demoTrack` with `currentTime = 4` (the window
`[3, 4]` is past the one-second track, so both extractions are degenerate). -/
theorem insufficient_data_zero_fill_witness :
    (windowEndSample demoTrack 4 1 - windowStartSample demoTrack 4 1 ≤ 0 ∧
      getWaveformDataForTimeWindow demoTrack 4 1 3 0 =
        List.replicate 3 0) ∧
    (windowEndSample demoTrack 4 1 - windowStartSample demoTrack 4 1 <
        (4 : ℤ) ∧
      getFrequencySpectrumForTimeWindow demoTrack 4 1 4 =
        List.replicate (4 / 2) 0) := by
  have hdeg : windowEndSample demoTrack 4 1 - windowStartSample demoTrack 4 1 ≤ 0 := by
    simp only [windowEndSample, windowStartSample, windowEndTime,
      windowStartTime, AudioTrack.sampleRate, AudioTrack.duration,
      AudioBuffer.duration, AudioBuffer.length, AudioBuffer.getChannelData,
      demoTrack]
    norm_num [List.getD]
  exact ⟨⟨hdeg, (insufficient_data_zero_fill demoTrack 4 1 3 0 4).1 hdeg⟩,
    ⟨by omega, (insufficient_data_zero_fill demoTrack 4 1 3 0 4).2 (by omega)⟩⟩

/-! ### Claim C7 -/

/-- C7 (offline frame driver): for positive `duration` and `fps` the export
strategy produces exactly `⌈duration·fps⌉` frames (at least one), and frame
`i` is rendered at `currentTime = i / fps`, recomputed from the index. -/
theorem offline_frame_driver (duration fps : ℚ) (hd : 0 < duration)
    (hf : 0 < fps) :
    (captureFrameTimes duration fps).length = ⌈duration * fps⌉.toNat ∧
    1 ≤ ⌈duration * fps⌉ ∧
    ∀ i < ⌈duration * fps⌉.toNat,
      (captureFrameTimes duration fps).getD i 0 = (i : ℚ) / fps := by
  refine ⟨by simp [captureFrameTimes], ?_, ?_⟩
  · have : (0 : ℚ) < duration * fps := mul_pos hd hf
    exact Int.ceil_pos.mpr this
  · intro i hi
    unfold captureFrameTimes
    have hlen : i < ((List.range ⌈duration * fps⌉.toNat).map
        (fun i : ℕ => (i : ℚ) / fps)).length := by
      simpa using hi
    rw [List.getD_eq_getElem _ _ hlen]
    simp

/-- Witness for C7: `duration = 2 s`, `fps = 10` gives exactly 20 frames and
frame 5 is rendered at `currentTime = 1/2` exactly. -/
theorem offline_frame_driver_witness :
    (0 : ℚ) < 2 ∧ (0 : ℚ) < 10 ∧
      (captureFrameTimes 2 10).length = 20 ∧
      (captureFrameTimes 2 10).getD 5 0 = 1 / 2 := by
  have h := offline_frame_driver 2 10 (by norm_num) (by norm_num)
  have hceil : ⌈(2 : ℚ) * 10⌉ = 20 := by norm_num
  refine ⟨by norm_num, by norm_num, ?_, ?_⟩
  · rw [h.1, hceil]
    rfl
  · have h5 := h.2.2 5 (by rw [hceil]; norm_num)
    rw [h5]
    norm_num

/-! ### Claim C8 -/

/-- C8 (progressive reveal): while `currentTime < windowDuration` the
realtime and additive renderers stroke exactly the leading
`⌊(currentTime/windowDuration)·width⌋` pixel columns; at or after
`windowDuration` they stroke the full width; and no column at or beyond
`maxX` is ever touched by the waveform loops. -/
theorem progressive_reveal (t : AudioTrack) (currentTime windowDuration : ℚ)
    (width smoothingLevel : ℕ) (hct : 0 ≤ currentTime)
    (hwd : 0 < windowDuration) :
    (currentTime < windowDuration →
      drawnColumnsRealtime t currentTime windowDuration width smoothingLevel =
        List.range ⌊currentTime / windowDuration * (width : ℚ)⌋.toNat ∧
      drawnColumnsAdditive currentTime windowDuration width =
        List.range ⌊currentTime / windowDuration * (width : ℚ)⌋.toNat) ∧
    (windowDuration ≤ currentTime →
      drawnColumnsRealtime t currentTime windowDuration width smoothingLevel =
        List.range width ∧
      drawnColumnsAdditive currentTime windowDuration width =
        List.range width) ∧
    (∀ x : ℕ, revealMaxX currentTime windowDuration width ≤ (x : ℤ) →
      x ∉ drawnColumnsRealtime t currentTime windowDuration width
          smoothingLevel ∧
      x ∉ drawnColumnsAdditive currentTime windowDuration width) := by
  have hlen := length_getWaveformDataForTimeWindow t currentTime
    windowDuration width smoothingLevel
  refine ⟨?_, ?_, ?_⟩
  · intro h
    have hmax : revealMaxX currentTime windowDuration width =
        ⌊currentTime / windowDuration * (width : ℚ)⌋ := by
      unfold revealMaxX
      rw [if_pos h]
    have hle : ⌊currentTime / windowDuration * (width : ℚ)⌋ ≤ (width : ℤ) := by
      have h1 : currentTime / windowDuration < 1 := (div_lt_one hwd).mpr h
      have h2 : currentTime / windowDuration * (width : ℚ) ≤ 1 * width :=
        mul_le_mul_of_nonneg_right (le_of_lt h1) (by positivity)
      calc ⌊currentTime / windowDuration * (width : ℚ)⌋
          ≤ ⌊(width : ℚ)⌋ := Int.floor_le_floor (by linarith)
        _ = (width : ℤ) := Int.floor_natCast width
    constructor
    · simp only [drawnColumnsRealtime]
      rw [hlen, hmax, min_eq_left hle]
    · simp only [drawnColumnsAdditive]
      rw [hmax, min_eq_left hle]
  · intro h
    have hmax : revealMaxX currentTime windowDuration width = (width : ℤ) := by
      unfold revealMaxX
      rw [if_neg (not_lt.mpr h)]
    constructor
    · simp only [drawnColumnsRealtime]
      rw [hlen, hmax, min_self]
      simp
    · simp only [drawnColumnsAdditive]
      rw [hmax, min_self]
      simp
  · intro x hx
    constructor
    · simp only [drawnColumnsRealtime]
      rw [hlen]
      simp only [List.mem_range]
      have : (min (revealMaxX currentTime windowDuration width)
          ((width : ℕ) : ℤ)).toNat ≤ x :=
        Int.toNat_le.mpr (le_trans (min_le_left _ _) hx)
      omega
    · simp only [drawnColumnsAdditive]
      simp only [List.mem_range]
      have : (min (revealMaxX currentTime windowDuration width)
          ((width : ℕ) : ℤ)).toNat ≤ x :=
        Int.toNat_le.mpr (le_trans (min_le_left _ _) hx)
      omega

/-- Witness for C8: `currentTime = 1/2`, `windowDuration = 1`, `width = 100`
draws exactly the first 50 columns. -/
theorem progressive_reveal_witness :
    (0 : ℚ) ≤ 1 / 2 ∧ (1 : ℚ) / 2 < 1 ∧
      drawnColumnsRealtime demoTrack (1 / 2) 1 100 0 = List.range 50 ∧
      drawnColumnsAdditive (1 / 2) 1 100 = List.range 50 := by
  have h := (progressive_reveal demoTrack (1 / 2) 1 100 0 (by norm_num)
      (by norm_num)).1 (by norm_num)
  have hval : (⌊(1 : ℚ) / 2 / 1 * ((100 : ℕ) : ℚ)⌋).toNat = 50 := by
    have hfl : ⌊(1 : ℚ) / 2 / 1 * ((100 : ℕ) : ℚ)⌋ = 50 := by norm_num
    rw [hfl]
    rfl
  refine ⟨by norm_num, by norm_num, ?_, ?_⟩
  · rw [h.1, hval]
  · rw [h.2, hval]

/-! ### Claim C2 -/

/-- What it means for `v` to be the peak of a bucket `[s, e)`: `v` is
nonnegative, bounds the absolute value of every in-bounds sample of the
bucket, and is either `0` or attained at some in-bounds bucket sample.
Together these pin `v` as the maximum absolute sample value of the bucket
(`0` when the bucket reads nothing). -/
def IsBucketPeak (data : List ℚ) (s e : ℤ) (v : ℚ) : Prop :=
  0 ≤ v ∧
  (∀ j : ℤ, s ≤ j → j < e → 0 ≤ j → j < (data.length : ℤ) →
    |data.getD j.toNat 0| ≤ v) ∧
  (v = 0 ∨ ∃ j : ℤ, (s ≤ j ∧ j < e) ∧ (0 ≤ j ∧ j < (data.length : ℤ)) ∧
    v = |data.getD j.toNat 0|)

theorem peak_foldl_spec (data : List ℚ) (L : List ℤ) (init : ℚ) :
    init ≤ L.foldl
        (fun m j =>
          if 0 ≤ j ∧ j < (data.length : ℤ) then max m |data.getD j.toNat 0|
          else m) init ∧
    (∀ j ∈ L, 0 ≤ j → j < (data.length : ℤ) →
      |data.getD j.toNat 0| ≤ L.foldl
        (fun m j =>
          if 0 ≤ j ∧ j < (data.length : ℤ) then max m |data.getD j.toNat 0|
          else m) init) ∧
    (L.foldl
        (fun m j =>
          if 0 ≤ j ∧ j < (data.length : ℤ) then max m |data.getD j.toNat 0|
          else m) init = init ∨
      ∃ j : ℤ, j ∈ L ∧ (0 ≤ j ∧ j < (data.length : ℤ)) ∧
        L.foldl
          (fun m j =>
            if 0 ≤ j ∧ j < (data.length : ℤ) then max m |data.getD j.toNat 0|
            else m) init = |data.getD j.toNat 0|) := by
  induction L generalizing init with
  | nil => simp
  | cons a L ih =>
    simp only [List.foldl_cons]
    by_cases hc : 0 ≤ a ∧ a < (data.length : ℤ)
    · rw [if_pos hc]
      obtain ⟨ih1, ih2, ih3⟩ := ih (max init |data.getD a.toNat 0|)
      refine ⟨le_trans (le_max_left _ _) ih1, ?_, ?_⟩
      · intro j hj h0 hlen
        rcases List.mem_cons.mp hj with rfl | hj'
        · exact le_trans (le_max_right _ _) ih1
        · exact ih2 j hj' h0 hlen
      · rcases ih3 with h | ⟨j, hj, hb, heq⟩
        · rcases max_choice init |data.getD a.toNat 0| with hmc | hmc
          · left; rw [h, hmc]
          · right; exact ⟨a, List.mem_cons_self a L, hc, by rw [h, hmc]⟩
        · right; exact ⟨j, List.mem_cons_of_mem _ hj, hb, heq⟩
    · rw [if_neg hc]
      obtain ⟨ih1, ih2, ih3⟩ := ih init
      refine ⟨ih1, ?_, ?_⟩
      · intro j hj h0 hlen
        rcases List.mem_cons.mp hj with rfl | hj'
        · exact absurd ⟨h0, hlen⟩ hc
        · exact ih2 j hj' h0 hlen
      · rcases ih3 with h | ⟨j, hj, hb, heq⟩
        · left; exact h
        · right; exact ⟨j, List.mem_cons_of_mem _ hj, hb, heq⟩

theorem bucketPeak_spec (data : List ℚ) (s e : ℤ) :
    IsBucketPeak data s e (bucketPeak data s e) := by
  unfold IsBucketPeak bucketPeak
  obtain ⟨h1, h2, h3⟩ := peak_foldl_spec data (intRange s e) 0
  refine ⟨h1, ?_, ?_⟩
  · intro j hjs hje h0 hlen
    exact h2 j (mem_intRange.mpr ⟨hjs, hje⟩) h0 hlen
  · rcases h3 with h | ⟨j, hj, hb, heq⟩
    · left; exact h
    · right; exact ⟨j, mem_intRange.mp hj, hb, heq⟩

theorem bucketPeak_nonneg (data : List ℚ) (s e : ℤ) :
    0 ≤ bucketPeak data s e :=
  (bucketPeak_spec data s e).1

/-- C2 (peak-hold downsampling): with a non-degenerate window and positive
width, each unsmoothed output element is exactly the maximum absolute sample
value of channel 0 inside its bucket
`[startSample + ⌊i·spp⌋, min (startSample + ⌊(i+1)·spp⌋) endSample)` where
`spp = totalSamples / targetWidth`; and the extraction reads only channel 0:
two tracks agreeing on channel 0 and sample rate extract identically, whatever
their other channels or opacity. -/
theorem peak_hold_downsampling (t : AudioTrack)
    (currentTime windowDuration : ℚ) (targetWidth : ℕ)
    (hne : 0 < windowEndSample t currentTime windowDuration -
      windowStartSample t currentTime windowDuration)
    (hW : 0 < targetWidth) :
    (∀ i, i < targetWidth →
      IsBucketPeak (t.buffer.getChannelData 0)
        (windowStartSample t currentTime windowDuration +
          ⌊(i : ℚ) * (((windowEndSample t currentTime windowDuration -
              windowStartSample t currentTime windowDuration : ℤ) : ℚ) /
            (targetWidth : ℚ))⌋)
        (min (windowStartSample t currentTime windowDuration +
            ⌊((i : ℚ) + 1) * (((windowEndSample t currentTime windowDuration -
                windowStartSample t currentTime windowDuration : ℤ) : ℚ) /
              (targetWidth : ℚ))⌋)
          (windowEndSample t currentTime windowDuration))
        ((getWaveformDataForTimeWindow t currentTime windowDuration
            targetWidth 0).getD i 0)) ∧
    (∀ (b₂ : AudioBuffer) (opacity₂ : ℚ),
      b₂.getChannelData 0 = t.buffer.getChannelData 0 →
      b₂.sampleRate = t.buffer.sampleRate →
      ∀ (ct wd : ℚ) (w s : ℕ),
        getWaveformDataForTimeWindow ⟨b₂, opacity₂⟩ ct wd w s =
          getWaveformDataForTimeWindow t ct wd w s) := by
  constructor
  · intro i hi
    have hkey : (getWaveformDataForTimeWindow t currentTime windowDuration
        targetWidth 0).getD i 0 =
        bucketPeak (t.buffer.getChannelData 0)
          (windowStartSample t currentTime windowDuration +
            ⌊(i : ℚ) * (((windowEndSample t currentTime windowDuration -
                windowStartSample t currentTime windowDuration : ℤ) : ℚ) /
              (targetWidth : ℚ))⌋)
          (min (windowStartSample t currentTime windowDuration +
              ⌊((i : ℚ) + 1) *
                (((windowEndSample t currentTime windowDuration -
                    windowStartSample t currentTime windowDuration : ℤ) : ℚ) /
                  (targetWidth : ℚ))⌋)
            (windowEndSample t currentTime windowDuration)) := by
      simp only [getWaveformDataForTimeWindow, waveformFromSamples]
      rw [if_neg (not_le.mpr hne), if_neg (Nat.lt_irrefl 0)]
      rw [List.getD_eq_getElem _ _ (by simpa using hi)]
      simp
    rw [hkey]
    exact bucketPeak_spec _ _ _
  · intro b₂ opacity₂ hch hsr ct wd w s
    unfold getWaveformDataForTimeWindow windowStartSample windowEndSample
      windowStartTime windowEndTime AudioTrack.duration AudioBuffer.duration
      AudioBuffer.length AudioTrack.sampleRate
    simp only [hch, hsr]

/-- Witness for C2 at `demoTrack` (window `[0,1]` at `currentTime = 1`,
five buckets of one sample each). -/
theorem peak_hold_downsampling_witness :
    (0 < windowEndSample demoTrack 1 1 - windowStartSample demoTrack 1 1 ∧
      (0 : ℕ) < 5) ∧
    IsBucketPeak (demoTrack.buffer.getChannelData 0)
      (windowStartSample demoTrack 1 1 +
        ⌊(0 : ℚ) * (((windowEndSample demoTrack 1 1 -
            windowStartSample demoTrack 1 1 : ℤ) : ℚ) / ((5 : ℕ) : ℚ))⌋)
      (min (windowStartSample demoTrack 1 1 +
          ⌊((0 : ℚ) + 1) * (((windowEndSample demoTrack 1 1 -
              windowStartSample demoTrack 1 1 : ℤ) : ℚ) / ((5 : ℕ) : ℚ))⌋)
        (windowEndSample demoTrack 1 1))
      ((getWaveformDataForTimeWindow demoTrack 1 1 5 0).getD 0 0) := by
  have hne : 0 < windowEndSample demoTrack 1 1 -
      windowStartSample demoTrack 1 1 := by
    simp only [windowEndSample, windowStartSample, windowEndTime,
      windowStartTime, AudioTrack.sampleRate, AudioTrack.duration,
      AudioBuffer.duration, AudioBuffer.length, AudioBuffer.getChannelData,
      demoTrack]
    norm_num [List.getD]
  exact ⟨⟨hne, by norm_num⟩,
    (peak_hold_downsampling demoTrack 1 1 5 hne (by norm_num)).1 0
      (by norm_num)⟩

/-! ### Claim C3 -/

/-- With a positive smoothing level and a non-degenerate window, extraction
is the smoothing filter applied to the unsmoothed extraction. -/
theorem getWaveform_smoothing_eq (t : AudioTrack)
    (currentTime windowDuration : ℚ) (targetWidth smoothingLevel : ℕ)
    (hs : 0 < smoothingLevel)
    (h : 0 < windowEndSample t currentTime windowDuration -
      windowStartSample t currentTime windowDuration) :
    getWaveformDataForTimeWindow t currentTime windowDuration targetWidth
        smoothingLevel =
      applySmoothingFilter
        (getWaveformDataForTimeWindow t currentTime windowDuration
          targetWidth 0) smoothingLevel := by
  unfold getWaveformDataForTimeWindow waveformFromSamples
  rw [if_neg (not_le.mpr h), if_neg (not_le.mpr h), if_pos hs,
    if_neg (Nat.lt_irrefl 0)]

/-- At `currentTime = windowDuration = 1` the window start sample of any
one-channel track is `0`. -/
theorem windowStartSample_unit (xs : List ℚ) (rate op : ℚ) :
    windowStartSample ⟨⟨[xs], rate⟩, op⟩ 1 1 = 0 := by
  unfold windowStartSample windowStartTime AudioTrack.sampleRate
  norm_num

/-- At `currentTime = windowDuration = 1` the window end sample of a
one-second mono track sampled at `length` Hz is its full length. -/
theorem windowEndSample_unit (xs : List ℚ) (rate : ℚ)
    (hrate : rate = (xs.length : ℚ)) (op : ℚ) :
    windowEndSample ⟨⟨[xs], rate⟩, op⟩ 1 1 = (xs.length : ℤ) := by
  unfold windowEndSample windowEndTime AudioTrack.sampleRate
    AudioTrack.duration AudioBuffer.duration AudioBuffer.length
    AudioBuffer.getChannelData
  norm_num [hrate]

/-- A one-second mono track sampled at `length` Hz with nonnegative samples
extracts, at `currentTime = windowDuration = 1` with one pixel per sample,
exactly its own sample list (each bucket holds one sample and peak-hold of a
single nonnegative sample is that sample). -/
theorem extraction_identity (xs : List ℚ) (rate : ℚ)
    (hrate : rate = (xs.length : ℚ)) (hne : xs ≠ [])
    (hnn : ∀ x ∈ xs, 0 ≤ x) (op : ℚ) :
    getWaveformDataForTimeWindow ⟨⟨[xs], rate⟩, op⟩ 1 1 xs.length 0 = xs := by
  have hlen0 : xs.length ≠ 0 := by simpa using hne
  have hlenQ : ((xs.length : ℕ) : ℚ) ≠ 0 := by exact_mod_cast hlen0
  have hlenZ : (0 : ℤ) < (xs.length : ℤ) := by
    exact_mod_cast Nat.pos_of_ne_zero hlen0
  have hs := windowStartSample_unit xs rate op
  have he := windowEndSample_unit xs rate hrate op
  show waveformFromSamples xs (windowStartSample ⟨⟨[xs], rate⟩, op⟩ 1 1)
      (windowEndSample ⟨⟨[xs], rate⟩, op⟩ 1 1) xs.length 0 = xs
  rw [hs, he]
  unfold waveformFromSamples
  rw [if_neg (by omega), if_neg (Nat.lt_irrefl 0)]
  have hspp : (((xs.length : ℤ) - 0 : ℤ) : ℚ) / ((xs.length : ℕ) : ℚ) = 1 := by
    rw [sub_zero]
    push_cast
    exact div_self hlenQ
  rw [hspp]
  apply List.ext_getElem (by simp)
  intro i hi1 hi2
  have hi : i < xs.length := by simpa using hi2
  simp only [List.getElem_map, List.getElem_range]
  have hfl1 : (0 : ℤ) + ⌊(i : ℚ) * 1⌋ = (i : ℤ) := by
    rw [mul_one, Int.floor_natCast, zero_add]
  have hfl2 : (0 : ℤ) + ⌊((i : ℚ) + 1) * 1⌋ = (i : ℤ) + 1 := by
    rw [mul_one, zero_add]
    rw [show ((i : ℚ) + 1) = (((i + 1 : ℕ)) : ℚ) by push_cast; ring]
    rw [Int.floor_natCast]
    push_cast
    ring
  rw [hfl1, hfl2, min_eq_left (by omega : (i : ℤ) + 1 ≤ (xs.length : ℤ))]
  have hrange : intRange (i : ℤ) ((i : ℤ) + 1) = [(i : ℤ)] := by
    unfold intRange
    rw [show ((i : ℤ) + 1 - (i : ℤ)) = 1 by ring]
    rw [show ((1 : ℤ)).toNat = 1 from rfl, List.range_succ]
    simp
  unfold bucketPeak
  rw [hrange]
  simp only [List.foldl_cons, List.foldl_nil]
  rw [if_pos ⟨by omega, by omega⟩]
  have hgd : xs.getD ((i : ℤ)).toNat 0 = xs[i] := by
    rw [Int.toNat_natCast]
    exact List.getD_eq_getElem xs 0 hi
  rw [hgd, abs_of_nonneg (hnn _ (List.getElem_mem hi)),
    max_eq_right (hnn _ (List.getElem_mem hi))]

/-- Second counterexample track: twenty-nine samples at 29 Hz (1 second).
The profile is a near-linear ramp with one dip near the end; level-1
smoothing of it has strictly larger variance than the raw extraction. -/
def rampTrack29 : AudioTrack :=
  ⟨⟨[[56, 66, 60, 59, 56, 54, 51, 49, 47, 44, 42, 40, 38, 35, 33, 31, 28,
      26, 24, 22, 19, 17, 15, 12, 10, 7, 6, 0, 10]], 29⟩, 1⟩

/-- C3 counterexample: variance of the extracted waveform is NOT
non-increasing in the smoothing level.  On `demoTrack` the variance rises
from level 1 to level 2 (`1/150 < 13/1875`), and on `rampTrack29` even
level-1 smoothing has strictly larger variance than the unsmoothed
extraction (`10098/29 < 90884/261`), refuting
`variance(smoothed) ≤ variance(unsmoothed)` as well. -/
theorem smoothing_variance_counterexample :
    variance (getWaveformDataForTimeWindow demoTrack 1 1 5 1) <
      variance (getWaveformDataForTimeWindow demoTrack 1 1 5 2) ∧
    variance (getWaveformDataForTimeWindow rampTrack29 1 1 29 0) <
      variance (getWaveformDataForTimeWindow rampTrack29 1 1 29 1) := by
  have hdemo0 : getWaveformDataForTimeWindow demoTrack 1 1 5 0 =
      [0, 1, 0, 0, 1] := by
    have h := extraction_identity [0, 1, 0, 0, 1] 5 (by norm_num) (by simp)
      (by intro x hx; fin_cases hx <;> norm_num) (7 / 10)
    simpa [demoTrack] using h
  have hwdemo : 0 < windowEndSample demoTrack 1 1 -
      windowStartSample demoTrack 1 1 := by
    rw [show demoTrack = ⟨⟨[[0, 1, 0, 0, 1]], 5⟩, 7 / 10⟩ from rfl,
      windowStartSample_unit, windowEndSample_unit _ _ (by norm_num)]
    norm_num
  have hramp0 : getWaveformDataForTimeWindow rampTrack29 1 1 29 0 =
      [56, 66, 60, 59, 56, 54, 51, 49, 47, 44, 42, 40, 38, 35, 33, 31, 28,
        26, 24, 22, 19, 17, 15, 12, 10, 7, 6, 0, 10] := by
    have h := extraction_identity
      [56, 66, 60, 59, 56, 54, 51, 49, 47, 44, 42, 40, 38, 35, 33, 31, 28,
        26, 24, 22, 19, 17, 15, 12, 10, 7, 6, 0, 10] 29 (by norm_num)
      (by simp) (by intro x hx; fin_cases hx <;> norm_num) 1
    simpa [rampTrack29] using h
  have hwramp : 0 < windowEndSample rampTrack29 1 1 -
      windowStartSample rampTrack29 1 1 := by
    rw [show rampTrack29 = ⟨⟨[[56, 66, 60, 59, 56, 54, 51, 49, 47, 44, 42,
        40, 38, 35, 33, 31, 28, 26, 24, 22, 19, 17, 15, 12, 10, 7, 6, 0,
        10]], 29⟩, 1⟩ from rfl,
      windowStartSample_unit, windowEndSample_unit _ _ (by norm_num)]
    norm_num
  rw [getWaveform_smoothing_eq demoTrack 1 1 5 1 (by norm_num) hwdemo,
    getWaveform_smoothing_eq demoTrack 1 1 5 2 (by norm_num) hwdemo,
    getWaveform_smoothing_eq rampTrack29 1 1 29 1 (by norm_num) hwramp,
    hdemo0, hramp0]
  constructor
  · simp [applySmoothingFilter, smoothAt, variance, List.range_succ,
      List.getD]
    norm_num
  · simp [applySmoothingFilter, smoothAt, variance, List.range_succ,
      List.getD]
    norm_num

theorem smooth_foldl_spec (w : List ℚ) (i : ℕ) (L : List ℤ) (p : ℚ × ℕ) :
    L.foldl
      (fun (p : ℚ × ℕ) j =>
        if 0 ≤ (i : ℤ) + j ∧ (i : ℤ) + j < (w.length : ℤ) then
          (p.1 + w.getD ((i : ℤ) + j).toNat 0, p.2 + 1)
        else p) p =
    (p.1 + ((L.filter (fun j => decide (0 ≤ (i : ℤ) + j ∧
          (i : ℤ) + j < (w.length : ℤ)))).map
        (fun j => w.getD ((i : ℤ) + j).toNat 0)).sum,
      p.2 + (L.filter (fun j => decide (0 ≤ (i : ℤ) + j ∧
          (i : ℤ) + j < (w.length : ℤ)))).length) := by
  induction L generalizing p with
  | nil => simp
  | cons a L ih =>
    simp only [List.foldl_cons]
    by_cases hc : 0 ≤ (i : ℤ) + a ∧ (i : ℤ) + a < (w.length : ℤ)
    · rw [if_pos hc, ih, List.filter_cons_of_pos (by simpa using hc)]
      simp only [List.map_cons, List.sum_cons, List.length_cons]
      rw [Prod.ext_iff]
      refine ⟨?_, ?_⟩ <;> dsimp only
      · ring
      · omega
    · rw [if_neg hc, ih, List.filter_cons_of_neg (by simpa using hc)]

/-- C3 amended: the smoothing post-process is a centered moving average of
window size `1 + 2·smoothingLevel` — each output position is the sum of the
in-bounds input entries at distance at most `smoothingLevel`, divided by
their count (so only the in-bounds neighbours are averaged at the buffer
edges).  The variance clauses of the original claim are dropped: both fail
(see the counterexample). -/
theorem smoothing_is_centered_moving_average (w : List ℚ) (level i : ℕ)
    (hi : i < w.length) :
    (applySmoothingFilter w level).getD i 0 =
      (((intRange ((i : ℤ) - level) ((i : ℤ) + level + 1)).filter
          (fun j => decide (0 ≤ j ∧ j < (w.length : ℤ)))).map
        (fun j => w.getD j.toNat 0)).sum /
      (((intRange ((i : ℤ) - level) ((i : ℤ) + level + 1)).filter
          (fun j => decide (0 ≤ j ∧ j < (w.length : ℤ)))).length : ℚ) := by
  have h1 : (applySmoothingFilter w level).getD i 0 =
      smoothAt w ((1 + level * 2) / 2) i := by
    unfold applySmoothingFilter
    rw [List.getD_eq_getElem _ _ (by simpa using hi)]
    simp
  rw [h1, show (1 + level * 2) / 2 = level from by omega]
  have h2 : smoothAt w level i =
      (if 0 < (((List.range (2 * level + 1)).map
          (fun o : ℕ => (o : ℤ) - (level : ℤ))).foldl
          (fun (p : ℚ × ℕ) j =>
            if 0 ≤ (i : ℤ) + j ∧ (i : ℤ) + j < (w.length : ℤ) then
              (p.1 + w.getD ((i : ℤ) + j).toNat 0, p.2 + 1)
            else p) (0, 0)).2
        then (((List.range (2 * level + 1)).map
            (fun o : ℕ => (o : ℤ) - (level : ℤ))).foldl
            (fun (p : ℚ × ℕ) j =>
              if 0 ≤ (i : ℤ) + j ∧ (i : ℤ) + j < (w.length : ℤ) then
                (p.1 + w.getD ((i : ℤ) + j).toNat 0, p.2 + 1)
              else p) (0, 0)).1 /
          ((((List.range (2 * level + 1)).map
            (fun o : ℕ => (o : ℤ) - (level : ℤ))).foldl
            (fun (p : ℚ × ℕ) j =>
              if 0 ≤ (i : ℤ) + j ∧ (i : ℤ) + j < (w.length : ℤ) then
                (p.1 + w.getD ((i : ℤ) + j).toNat 0, p.2 + 1)
              else p) (0, 0)).2 : ℚ)
        else w.getD i 0) := rfl
  rw [h2, smooth_foldl_spec]
  dsimp only
  simp only [zero_add]
  have hshift : intRange ((i : ℤ) - level) ((i : ℤ) + level + 1) =
      ((List.range (2 * level + 1)).map
        (fun o : ℕ => (o : ℤ) - (level : ℤ))).map
        (fun j => (i : ℤ) + j) := by
    unfold intRange
    rw [List.map_map]
    rw [show ((i : ℤ) + level + 1 - ((i : ℤ) - level)) =
      ((2 * level + 1 : ℕ) : ℤ) by push_cast; ring]
    rw [Int.toNat_natCast]
    apply List.map_congr_left
    intro a _
    simp [Function.comp]
    ring
  have hlists : ((intRange ((i : ℤ) - level) ((i : ℤ) + level + 1)).filter
        (fun j => decide (0 ≤ j ∧ j < (w.length : ℤ)))).map
        (fun j => w.getD j.toNat 0) =
      (((List.range (2 * level + 1)).map
          (fun o : ℕ => (o : ℤ) - (level : ℤ))).filter
        (fun j => decide (0 ≤ (i : ℤ) + j ∧
          (i : ℤ) + j < (w.length : ℤ)))).map
        (fun j => w.getD ((i : ℤ) + j).toNat 0) := by
    rw [hshift, List.filter_map, List.map_map]
    rfl
  have hlen : ((intRange ((i : ℤ) - level) ((i : ℤ) + level + 1)).filter
        (fun j => decide (0 ≤ j ∧ j < (w.length : ℤ)))).length =
      (((List.range (2 * level + 1)).map
          (fun o : ℕ => (o : ℤ) - (level : ℤ))).filter
        (fun j => decide (0 ≤ (i : ℤ) + j ∧
          (i : ℤ) + j < (w.length : ℤ)))).length := by
    have := congrArg List.length hlists
    simpa using this
  have hmem : (0 : ℤ) ∈ ((List.range (2 * level + 1)).map
      (fun o : ℕ => (o : ℤ) - (level : ℤ))).filter
      (fun j => decide (0 ≤ (i : ℤ) + j ∧ (i : ℤ) + j < (w.length : ℤ))) := by
    rw [List.mem_filter]
    constructor
    · rw [List.mem_map]
      exact ⟨level, by simp [List.mem_range]; omega, by ring⟩
    · have : (i : ℤ) < (w.length : ℤ) := by exact_mod_cast hi
      simp
      omega
  have hC : 0 < (((List.range (2 * level + 1)).map
      (fun o : ℕ => (o : ℤ) - (level : ℤ))).filter
      (fun j => decide (0 ≤ (i : ℤ) + j ∧
        (i : ℤ) + j < (w.length : ℤ)))).length :=
    List.length_pos.mpr (List.ne_nil_of_mem hmem)
  rw [if_pos hC]
  rw [hlists, hlen]

/-- Witness for the amended C3 at `[0,1,0,0,1]`, level 1, index 0. -/
theorem smoothing_moving_average_witness :
    0 < ([0, 1, 0, 0, 1] : List ℚ).length ∧
    (applySmoothingFilter [0, 1, 0, 0, 1] 1).getD 0 0 =
      (((intRange (((0 : ℕ) : ℤ) - ((1 : ℕ) : ℤ))
            (((0 : ℕ) : ℤ) + ((1 : ℕ) : ℤ) + 1)).filter
          (fun j => decide (0 ≤ j ∧
            j < (([0, 1, 0, 0, 1] : List ℚ).length : ℤ)))).map
        (fun j => ([0, 1, 0, 0, 1] : List ℚ).getD j.toNat 0)).sum /
      (((intRange (((0 : ℕ) : ℤ) - ((1 : ℕ) : ℤ))
            (((0 : ℕ) : ℤ) + ((1 : ℕ) : ℤ) + 1)).filter
          (fun j => decide (0 ≤ j ∧
            j < (([0, 1, 0, 0, 1] : List ℚ).length : ℤ)))).length : ℚ) :=
  ⟨by norm_num,
    smoothing_is_centered_moving_average [0, 1, 0, 0, 1] 1 0 (by norm_num)⟩

/-! ### Bounds on extracted and smoothed values -/

/-- Closed form of `smoothAt`: the sum of the in-bounds neighbours divided by
their count, or the original entry if nothing is in bounds. -/
theorem smoothAt_eq (w : List ℚ) (h i : ℕ) :
    smoothAt w h i =
      if 0 < (((List.range (2 * h + 1)).map
          (fun o : ℕ => (o : ℤ) - (h : ℤ))).filter
          (fun j => decide (0 ≤ (i : ℤ) + j ∧
            (i : ℤ) + j < (w.length : ℤ)))).length
      then ((((List.range (2 * h + 1)).map
          (fun o : ℕ => (o : ℤ) - (h : ℤ))).filter
          (fun j => decide (0 ≤ (i : ℤ) + j ∧
            (i : ℤ) + j < (w.length : ℤ)))).map
          (fun j => w.getD ((i : ℤ) + j).toNat 0)).sum /
        ((((List.range (2 * h + 1)).map
          (fun o : ℕ => (o : ℤ) - (h : ℤ))).filter
          (fun j => decide (0 ≤ (i : ℤ) + j ∧
            (i : ℤ) + j < (w.length : ℤ)))).length : ℚ)
      else w.getD i 0 := by
  have h2 : smoothAt w h i =
      (if 0 < (((List.range (2 * h + 1)).map
          (fun o : ℕ => (o : ℤ) - (h : ℤ))).foldl
          (fun (p : ℚ × ℕ) j =>
            if 0 ≤ (i : ℤ) + j ∧ (i : ℤ) + j < (w.length : ℤ) then
              (p.1 + w.getD ((i : ℤ) + j).toNat 0, p.2 + 1)
            else p) (0, 0)).2
        then (((List.range (2 * h + 1)).map
            (fun o : ℕ => (o : ℤ) - (h : ℤ))).foldl
            (fun (p : ℚ × ℕ) j =>
              if 0 ≤ (i : ℤ) + j ∧ (i : ℤ) + j < (w.length : ℤ) then
                (p.1 + w.getD ((i : ℤ) + j).toNat 0, p.2 + 1)
              else p) (0, 0)).1 /
          ((((List.range (2 * h + 1)).map
            (fun o : ℕ => (o : ℤ) - (h : ℤ))).foldl
            (fun (p : ℚ × ℕ) j =>
              if 0 ≤ (i : ℤ) + j ∧ (i : ℤ) + j < (w.length : ℤ) then
                (p.1 + w.getD ((i : ℤ) + j).toNat 0, p.2 + 1)
              else p) (0, 0)).2 : ℚ)
        else w.getD i 0) := rfl
  rw [h2, smooth_foldl_spec]
  dsimp only
  simp only [zero_add]

/-- Every neighbour read by `smoothAt` is an entry of the buffer. -/
theorem smoothAt_neighbour_mem (w : List ℚ) (h i : ℕ) (j : ℤ)
    (hj : j ∈ ((List.range (2 * h + 1)).map
        (fun o : ℕ => (o : ℤ) - (h : ℤ))).filter
        (fun j => decide (0 ≤ (i : ℤ) + j ∧ (i : ℤ) + j < (w.length : ℤ)))) :
    w.getD ((i : ℤ) + j).toNat 0 ∈ w := by
  obtain ⟨-, hcond⟩ := List.mem_filter.mp hj
  have hc : 0 ≤ (i : ℤ) + j ∧ (i : ℤ) + j < (w.length : ℤ) :=
    of_decide_eq_true hcond
  have hlt : ((i : ℤ) + j).toNat < w.length := by omega
  rw [List.getD_eq_getElem w 0 hlt]
  exact List.getElem_mem hlt

theorem smoothAt_le (w : List ℚ) (h i : ℕ) (hi : i < w.length) (M : ℚ)
    (hM : ∀ u ∈ w, u ≤ M) : smoothAt w h i ≤ M := by
  rw [smoothAt_eq]
  split
  · next hC =>
    set F := ((List.range (2 * h + 1)).map
        (fun o : ℕ => (o : ℤ) - (h : ℤ))).filter
        (fun j => decide (0 ≤ (i : ℤ) + j ∧
          (i : ℤ) + j < (w.length : ℤ))) with hF
    have hsum : (F.map (fun j => w.getD ((i : ℤ) + j).toNat 0)).sum ≤
        (F.map (fun j => w.getD ((i : ℤ) + j).toNat 0)).length • M := by
      apply List.sum_le_card_nsmul
      intro x hx
      obtain ⟨j, hj, rfl⟩ := List.mem_map.mp hx
      exact hM _ (smoothAt_neighbour_mem w h i j hj)
    rw [List.length_map, nsmul_eq_mul] at hsum
    have hCpos : (0 : ℚ) < (F.length : ℚ) := by exact_mod_cast hC
    rw [div_le_iff hCpos]
    calc (F.map (fun j => w.getD ((i : ℤ) + j).toNat 0)).sum
        ≤ (F.length : ℚ) * M := hsum
      _ = M * (F.length : ℚ) := by ring
  · next =>
    rw [List.getD_eq_getElem w 0 hi]
    exact hM _ (List.getElem_mem hi)

theorem le_smoothAt (w : List ℚ) (h i : ℕ) (hi : i < w.length) (m : ℚ)
    (hm : ∀ u ∈ w, m ≤ u) : m ≤ smoothAt w h i := by
  rw [smoothAt_eq]
  split
  · next hC =>
    set F := ((List.range (2 * h + 1)).map
        (fun o : ℕ => (o : ℤ) - (h : ℤ))).filter
        (fun j => decide (0 ≤ (i : ℤ) + j ∧
          (i : ℤ) + j < (w.length : ℤ))) with hF
    have hsum : (F.map (fun j => w.getD ((i : ℤ) + j).toNat 0)).length • m ≤
        (F.map (fun j => w.getD ((i : ℤ) + j).toNat 0)).sum := by
      apply List.card_nsmul_le_sum
      intro x hx
      obtain ⟨j, hj, rfl⟩ := List.mem_map.mp hx
      exact hm _ (smoothAt_neighbour_mem w h i j hj)
    rw [List.length_map, nsmul_eq_mul] at hsum
    have hCpos : (0 : ℚ) < (F.length : ℚ) := by exact_mod_cast hC
    rw [le_div_iff hCpos]
    calc m * (F.length : ℚ) = (F.length : ℚ) * m := by ring
      _ ≤ _ := hsum
  · next =>
    rw [List.getD_eq_getElem w 0 hi]
    exact hm _ (List.getElem_mem hi)

theorem applySmoothingFilter_le (w : List ℚ) (level : ℕ) (M : ℚ)
    (hM : ∀ u ∈ w, u ≤ M) :
    ∀ v ∈ applySmoothingFilter w level, v ≤ M := by
  intro v hv
  unfold applySmoothingFilter at hv
  obtain ⟨i, hi, rfl⟩ := List.mem_map.mp hv
  exact smoothAt_le w _ i (List.mem_range.mp hi) M hM

theorem le_applySmoothingFilter (w : List ℚ) (level : ℕ) (m : ℚ)
    (hm : ∀ u ∈ w, m ≤ u) :
    ∀ v ∈ applySmoothingFilter w level, m ≤ v := by
  intro v hv
  unfold applySmoothingFilter at hv
  obtain ⟨i, hi, rfl⟩ := List.mem_map.mp hv
  exact le_smoothAt w _ i (List.mem_range.mp hi) m hm

/-- Every extracted waveform value is nonnegative, at every smoothing
level. -/
theorem getWaveform_nonneg (t : AudioTrack) (currentTime windowDuration : ℚ)
    (targetWidth smoothingLevel : ℕ) :
    ∀ v ∈ getWaveformDataForTimeWindow t currentTime windowDuration
      targetWidth smoothingLevel, 0 ≤ v := by
  intro v hv
  simp only [getWaveformDataForTimeWindow, waveformFromSamples] at hv
  split at hv
  · rw [List.eq_of_mem_replicate hv]
  · have hraw : ∀ u ∈ (List.range targetWidth).map (fun i : ℕ =>
        bucketPeak (t.buffer.getChannelData 0)
          (windowStartSample t currentTime windowDuration +
            ⌊(i : ℚ) * (((windowEndSample t currentTime windowDuration -
              windowStartSample t currentTime windowDuration : ℤ) : ℚ) /
              (targetWidth : ℚ))⌋)
          (min (windowStartSample t currentTime windowDuration +
              ⌊((i : ℚ) + 1) * (((windowEndSample t currentTime
                windowDuration - windowStartSample t currentTime
                windowDuration : ℤ) : ℚ) / (targetWidth : ℚ))⌋)
            (windowEndSample t currentTime windowDuration))), 0 ≤ u := by
      intro u hu
      obtain ⟨i, -, rfl⟩ := List.mem_map.mp hu
      exact bucketPeak_nonneg _ _ _
    split at hv
    · exact le_applySmoothingFilter _ _ 0 hraw v hv
    · exact hraw v hv

/-- Every smoothed extracted value is bounded by any bound of the unsmoothed
extraction (provided the bound is itself nonnegative, for the degenerate
zero-fill case). -/
theorem getWaveform_le (t : AudioTrack) (currentTime windowDuration : ℚ)
    (targetWidth smoothingLevel : ℕ) (M : ℚ) (hM0 : 0 ≤ M)
    (hub : ∀ u ∈ getWaveformDataForTimeWindow t currentTime windowDuration
      targetWidth 0, u ≤ M) :
    ∀ v ∈ getWaveformDataForTimeWindow t currentTime windowDuration
      targetWidth smoothingLevel, v ≤ M := by
  intro v hv
  simp only [getWaveformDataForTimeWindow, waveformFromSamples] at hv hub
  split at hv
  · rw [List.eq_of_mem_replicate hv]
    exact hM0
  · next hne =>
    rw [if_neg hne, if_neg (Nat.lt_irrefl 0)] at hub
    split at hv
    · exact applySmoothingFilter_le _ _ M hub v hv
    · exact hub v hv

/-- Extracted values read through `getD` are nonnegative. -/
theorem getWaveform_getD_nonneg (t : AudioTrack)
    (currentTime windowDuration : ℚ) (targetWidth smoothingLevel x : ℕ) :
    0 ≤ (getWaveformDataForTimeWindow t currentTime windowDuration
      targetWidth smoothingLevel).getD x 0 := by
  by_cases hx : x < (getWaveformDataForTimeWindow t currentTime
      windowDuration targetWidth smoothingLevel).length
  · rw [List.getD_eq_getElem _ 0 hx]
    exact getWaveform_nonneg t currentTime windowDuration targetWidth
      smoothingLevel _ (List.getElem_mem hx)
  · rw [List.getD_eq_default _ 0 (by omega)]

/-! ### Claim C10 -/

theorem ite_lt_eq_max (g v : ℚ) : (if g < v then v else g) = max g v := by
  rcases le_or_lt v g with h | h
  · rw [if_neg (not_lt.mpr h), max_eq_left h]
  · rw [if_pos h, max_eq_right (le_of_lt h)]

theorem foldl_ite_max_spec (l : List ℚ) (init : ℚ) :
    init ≤ l.foldl (fun g v => if g < v then v else g) init ∧
    ∀ v ∈ l, v ≤ l.foldl (fun g v => if g < v then v else g) init := by
  induction l generalizing init with
  | nil => simp
  | cons a l ih =>
    simp only [List.foldl_cons]
    obtain ⟨ih1, ih2⟩ := ih (if init < a then a else init)
    have hstep : init ≤ (if init < a then a else init) := by
      rw [ite_lt_eq_max]
      exact le_max_left _ _
    have hstepa : a ≤ (if init < a then a else init) := by
      rw [ite_lt_eq_max]
      exact le_max_right _ _
    refine ⟨le_trans hstep ih1, ?_⟩
    intro v hv
    rcases List.mem_cons.mp hv with rfl | hv'
    · exact le_trans hstepa ih1
    · exact ih2 v hv'

theorem globalMax_fold_spec (tracks : List AudioTrack)
    (currentTime windowDuration : ℚ) (width : ℕ) (init : ℚ) :
    init ≤ tracks.foldl
      (fun g tr =>
        (getWaveformDataForTimeWindow tr currentTime windowDuration width
            0).foldl (fun g' v => if g' < v then v else g') g) init ∧
    ∀ tr ∈ tracks,
      ∀ v ∈ getWaveformDataForTimeWindow tr currentTime windowDuration
        width 0,
        v ≤ tracks.foldl
          (fun g tr =>
            (getWaveformDataForTimeWindow tr currentTime windowDuration width
                0).foldl (fun g' v => if g' < v then v else g') g) init := by
  induction tracks generalizing init with
  | nil => simp
  | cons t ts ih =>
    simp only [List.foldl_cons]
    obtain ⟨inner1, inner2⟩ := foldl_ite_max_spec
      (getWaveformDataForTimeWindow t currentTime windowDuration width 0) init
    obtain ⟨ih1, ih2⟩ := ih
      ((getWaveformDataForTimeWindow t currentTime windowDuration width
        0).foldl (fun g' v => if g' < v then v else g') init)
    refine ⟨le_trans inner1 ih1, ?_⟩
    intro tr htr v hv
    rcases List.mem_cons.mp htr with rfl | htr'
    · exact le_trans (inner2 v hv) ih1
    · exact ih2 tr htr' v hv

theorem calculateGlobalMaxAmplitude_pos (tracks : List AudioTrack)
    (currentTime windowDuration : ℚ) (width : ℕ) :
    0 < calculateGlobalMaxAmplitude tracks currentTime windowDuration width := by
  simp only [calculateGlobalMaxAmplitude]
  split
  · next h => exact h
  · norm_num

/-- Every (possibly smoothed) extracted value of a member track, read through
`getD`, is at most the renderer's global maximum amplitude. -/
theorem getD_le_globalMax (tracks : List AudioTrack) (tr : AudioTrack)
    (htr : tr ∈ tracks) (currentTime windowDuration : ℚ)
    (width smoothingLevel x : ℕ) :
    (getWaveformDataForTimeWindow tr currentTime windowDuration width
        smoothingLevel).getD x 0 ≤
      calculateGlobalMaxAmplitude tracks currentTime windowDuration width := by
  have hG := calculateGlobalMaxAmplitude_pos tracks currentTime
    windowDuration width
  by_cases hx : x < (getWaveformDataForTimeWindow tr currentTime
      windowDuration width smoothingLevel).length
  · rw [List.getD_eq_getElem _ 0 hx]
    have hmem := List.getElem_mem hx
    obtain ⟨hfold, hub⟩ := globalMax_fold_spec tracks currentTime
      windowDuration width 0
    simp only [calculateGlobalMaxAmplitude]
    split
    · next hpos =>
      exact getWaveform_le tr currentTime windowDuration width smoothingLevel
        _ (le_of_lt hpos) (hub tr htr) _ hmem
    · next hneg =>
      have h0 : ∀ u ∈ getWaveformDataForTimeWindow tr currentTime
          windowDuration width 0, u ≤ 0 := by
        intro u hu
        exact le_trans (hub tr htr u hu) (not_lt.mp hneg)
      have := getWaveform_le tr currentTime windowDuration width
        smoothingLevel 0 le_rfl h0 _ hmem
      linarith
  · rw [List.getD_eq_default _ 0 (by omega)]
    exact le_of_lt hG

/-- C10 (implicit): the moving-average output always lies between the
minimum and maximum of its input buffer, so smoothing never raises the peak;
consequently, in normalized amplitude mode — whose global maximum is computed
from unsmoothed extractions while drawing divides the smoothed extraction by
it — every drawn normalized amplitude is at most 1. -/
theorem smoothing_bounded_normalized_le_one :
    (∀ (w : List ℚ) (level : ℕ), 1 ≤ level →
      ∀ v ∈ applySmoothingFilter w level,
        (∀ m, (∀ u ∈ w, m ≤ u) → m ≤ v) ∧
        (∀ M, (∀ u ∈ w, u ≤ M) → v ≤ M)) ∧
    (∀ (tracks : List AudioTrack) (tr : AudioTrack), tr ∈ tracks →
      ∀ (currentTime windowDuration : ℚ) (width smoothingLevel x : ℕ),
        normalizedDrawnAmplitude tr tracks currentTime windowDuration width
          smoothingLevel x ≤ 1) := by
  constructor
  · intro w level _ v hv
    exact ⟨fun m hm => le_applySmoothingFilter w level m hm v hv,
      fun M hM => applySmoothingFilter_le w level M hM v hv⟩
  · intro tracks tr htr currentTime windowDuration width smoothingLevel x
    unfold normalizedDrawnAmplitude
    have hG := calculateGlobalMaxAmplitude_pos tracks currentTime
      windowDuration width
    rw [if_pos hG, div_le_one hG]
    exact getD_le_globalMax tracks tr htr currentTime windowDuration width
      smoothingLevel x

/-- Witness for C10: one-track list, smoothed level 1, column 0. -/
theorem smoothing_bounded_normalized_le_one_witness :
    demoTrack ∈ [demoTrack] ∧
    normalizedDrawnAmplitude demoTrack [demoTrack] 1 1 5 1 0 ≤ 1 :=
  ⟨by simp,
    smoothing_bounded_normalized_le_one.2 [demoTrack] demoTrack (by simp)
      1 1 5 1 0⟩

/-! ### Claim C5 -/

theorem foldl_add_eq_sum (l : List ℚ) (a : ℚ) :
    l.foldl (· + ·) a = a + l.sum := by
  induction l generalizing a with
  | nil => simp
  | cons x xs ih =>
    simp only [List.foldl_cons, List.sum_cons, ih]
    ring

theorem sum_map_mul (l : List ℚ) (c : ℚ) :
    (l.map (· * c)).sum = l.sum * c := by
  induction l with
  | nil => simp
  | cons x xs ih =>
    simp only [List.map_cons, List.sum_cons, ih]
    ring

theorem sum_filter_le_sum (l : List ℚ) (p : ℚ → Bool)
    (h : ∀ x ∈ l, 0 ≤ x) : (l.filter p).sum ≤ l.sum := by
  induction l with
  | nil => simp
  | cons x xs ih =>
    have hx := h x (List.mem_cons_self x xs)
    have ihx := ih (fun y hy => h y (List.mem_cons_of_mem x hy))
    by_cases hp : p x
    · rw [List.filter_cons_of_pos hp, List.sum_cons, List.sum_cons]
      linarith
    · rw [List.filter_cons_of_neg (by simpa using hp), List.sum_cons]
      linarith

/-- Each collected additive-column amplitude is nonnegative. -/
theorem columnAmplitudes_nonneg (tracks : List AudioTrack)
    (currentTime windowDuration : ℚ) (width smoothingLevel : ℕ)
    (normalized : Bool) (globalMaxAmplitude : ℚ) (x : ℕ) :
    ∀ a ∈ columnAmplitudes tracks currentTime windowDuration width
      smoothingLevel normalized globalMaxAmplitude x, 0 ≤ a := by
  intro a ha
  unfold columnAmplitudes at ha
  obtain ⟨tr, -, rfl⟩ := List.mem_map.mp ha
  dsimp only
  split
  · next hc =>
    exact div_nonneg (getWaveform_getD_nonneg tr currentTime windowDuration
      width smoothingLevel x) (le_of_lt hc.2)
  · exact getWaveform_getD_nonneg tr currentTime windowDuration width
      smoothingLevel x

/-- C5 (additive layout clipping safety): at any pixel column, when the sum
of the collected (possibly normalized) amplitudes exceeds `1.0`, every
amplitude is multiplied by `1/sum` (a proportional scale-down, not a clamp);
and the total stacked height of the segments actually drawn on either half
never exceeds `maxAmplitude` (segments of height at most `0.5` pixel are
skipped). -/
theorem additive_clipping_safety (tracks : List AudioTrack)
    (currentTime windowDuration : ℚ) (width smoothingLevel x : ℕ)
    (normalized : Bool) (globalMaxAmplitude maxAmplitude : ℚ)
    (hM : 0 ≤ maxAmplitude) :
    (1 < (columnAmplitudes tracks currentTime windowDuration width
        smoothingLevel normalized globalMaxAmplitude x).foldl (· + ·) 0 →
      additiveColumnScaled (columnAmplitudes tracks currentTime
          windowDuration width smoothingLevel normalized globalMaxAmplitude
          x) =
        (columnAmplitudes tracks currentTime windowDuration width
          smoothingLevel normalized globalMaxAmplitude x).map
          (fun a => a * (1 / (columnAmplitudes tracks currentTime
            windowDuration width smoothingLevel normalized
            globalMaxAmplitude x).foldl (· + ·) 0))) ∧
    (additiveColumnDrawnHeights (columnAmplitudes tracks currentTime
        windowDuration width smoothingLevel normalized globalMaxAmplitude x)
      maxAmplitude).sum ≤ maxAmplitude := by
  set amps := columnAmplitudes tracks currentTime windowDuration width
    smoothingLevel normalized globalMaxAmplitude x with hamps
  have hnn : ∀ a ∈ amps, 0 ≤ a := by
    rw [hamps]
    exact columnAmplitudes_nonneg tracks currentTime windowDuration width
      smoothingLevel normalized globalMaxAmplitude x
  constructor
  · intro h
    simp only [additiveColumnScaled]
    rw [if_pos h]
  · have hsf : (0 : ℚ) ≤ (if 1 < amps.foldl (· + ·) 0 then
        1 / amps.foldl (· + ·) 0 else 1) := by
      split
      · next h => positivity
      · norm_num
    have hscaled_nonneg : ∀ b ∈ additiveColumnScaled amps, 0 ≤ b := by
      intro b hb
      unfold additiveColumnScaled at hb
      obtain ⟨a, ha, rfl⟩ := List.mem_map.mp hb
      exact mul_nonneg (hnn a ha) hsf
    have hsum : (additiveColumnScaled amps).sum ≤ 1 := by
      unfold additiveColumnScaled
      rw [sum_map_mul]
      rw [foldl_add_eq_sum, zero_add] at hsf ⊢
      split
      · next h =>
        exact le_of_eq (by rw [mul_one_div, div_self (by linarith)])
      · next h =>
        rw [mul_one]
        exact not_lt.mp h
    unfold additiveColumnDrawnHeights
    calc (((additiveColumnScaled amps).map (· * maxAmplitude)).filter
          (fun h => decide ((1 : ℚ) / 2 < h))).sum
        ≤ ((additiveColumnScaled amps).map (· * maxAmplitude)).sum := by
          apply sum_filter_le_sum
          intro y hy
          obtain ⟨b, hb, rfl⟩ := List.mem_map.mp hy
          exact mul_nonneg (hscaled_nonneg b hb) hM
      _ = (additiveColumnScaled amps).sum * maxAmplitude := sum_map_mul _ _
      _ ≤ 1 * maxAmplitude := mul_le_mul_of_nonneg_right hsum hM
      _ = maxAmplitude := one_mul _

/-- Witness for C5: one-track column with `maxAmplitude = 100`. -/
theorem additive_clipping_safety_witness :
    (0 : ℚ) ≤ 100 ∧
    (additiveColumnDrawnHeights
        (columnAmplitudes [demoTrack] 1 1 5 0 false 1 0) 100).sum ≤ 100 :=
  ⟨by norm_num,
    (additive_clipping_safety [demoTrack] 1 1 5 0 0 false 1 100
      (by norm_num)).2⟩

/-! ### Claim C6 -/

theorem foldl_max_f_spec (f : ℕ → ℚ) (L : List ℕ) (init : ℚ) :
    init ≤ L.foldl (fun m i => max m (f i)) init ∧
    ∀ i ∈ L, f i ≤ L.foldl (fun m i => max m (f i)) init := by
  induction L generalizing init with
  | nil => simp
  | cons a L ih =>
    simp only [List.foldl_cons]
    obtain ⟨ih1, ih2⟩ := ih (max init (f a))
    refine ⟨le_trans (le_max_left _ _) ih1, ?_⟩
    intro i hi
    rcases List.mem_cons.mp hi with rfl | hi'
    · exact le_trans (le_max_right _ _) ih1
    · exact ih2 i hi'

theorem mixRawLeftAt_eq_sum (tracks : List AudioTrack) (i : ℕ) :
    mixRawLeftAt tracks i = (tracks.map (fun t =>
      if i < t.buffer.length then
        (t.buffer.getChannelData 0).getD i 0 * t.opacity
      else 0)).sum := by
  unfold mixRawLeftAt
  rw [foldl_addf_eq_sum, zero_add]

theorem mixRawRightAt_eq_sum (tracks : List AudioTrack) (i : ℕ) :
    mixRawRightAt tracks i = (tracks.map (fun t =>
      if i < t.buffer.length then
        (rightChannelData t).getD i 0 * t.opacity
      else 0)).sum := by
  unfold mixRawRightAt
  rw [foldl_addf_eq_sum, zero_add]

theorem abs_getD_le_mixPeak (tracks : List AudioTrack) (i : ℕ)
    (hi : i < mixNumSamples tracks) :
    |(mixRawLeft tracks).getD i 0| ≤ mixPeak tracks ∧
    |(mixRawRight tracks).getD i 0| ≤ mixPeak tracks := by
  obtain ⟨-, hub⟩ := foldl_max_f_spec
    (fun i => max |(mixRawLeft tracks).getD i 0|
      |(mixRawRight tracks).getD i 0|)
    (List.range (mixNumSamples tracks)) 0
  have h := hub i (List.mem_range.mpr hi)
  unfold mixPeak
  exact ⟨le_trans (le_max_left _ _) h, le_trans (le_max_right _ _) h⟩

theorem mixPeak_nonneg (tracks : List AudioTrack) : 0 ≤ mixPeak tracks :=
  (foldl_max_f_spec
    (fun i => max |(mixRawLeft tracks).getD i 0|
      |(mixRawRight tracks).getD i 0|)
    (List.range (mixNumSamples tracks)) 0).1

/-- C6 (mixer): with a nonempty track list the mixer allocates
`⌈maxTrackDuration · sampleRate⌉` samples per channel; each pre-normalization
sample is the sum over tracks of channel 0 (resp. channel 1, or channel 0
again when mono) weighted by that track's opacity; when the peak exceeds
`1.0` every output sample is the accumulated sample divided by that peak
(proportional normalization, not a clamp), and otherwise both channels are
left identical to the accumulators — so every output sample has absolute
value at most `1.0`. -/
theorem mixer_spec (tracks : List AudioTrack) (h : tracks ≠ []) :
    (mixRawLeft tracks).length =
      ⌈engineDuration tracks * (tracks.headD default).sampleRate⌉.toNat ∧
    (∀ i, mixRawLeftAt tracks i = (tracks.map (fun t =>
        if i < t.buffer.length then
          (t.buffer.getChannelData 0).getD i 0 * t.opacity
        else 0)).sum ∧
      mixRawRightAt tracks i = (tracks.map (fun t =>
        if i < t.buffer.length then
          (rightChannelData t).getD i 0 * t.opacity
        else 0)).sum) ∧
    ∃ r : MixResult, mixTracks tracks = some r ∧
      r.left.length = mixNumSamples tracks ∧
      r.right.length = mixNumSamples tracks ∧
      r.sampleRate = (tracks.headD default).sampleRate ∧
      (∀ v ∈ r.left, |v| ≤ 1) ∧ (∀ v ∈ r.right, |v| ≤ 1) ∧
      (1 < mixPeak tracks →
        ∀ i, i < mixNumSamples tracks →
          r.left.getD i 0 = mixRawLeftAt tracks i / mixPeak tracks ∧
          r.right.getD i 0 = mixRawRightAt tracks i / mixPeak tracks) ∧
      (mixPeak tracks ≤ 1 →
        r.left = mixRawLeft tracks ∧ r.right = mixRawRight tracks) := by
  have habs : ∀ v ∈ mixRawLeft tracks, |v| ≤ mixPeak tracks := by
    intro v hv
    obtain ⟨i, hi, rfl⟩ := List.mem_map.mp hv
    have hi' := List.mem_range.mp hi
    have := (abs_getD_le_mixPeak tracks i (by simpa using hi')).1
    rwa [show (mixRawLeft tracks).getD i 0 = mixRawLeftAt tracks i by
      unfold mixRawLeft
      rw [List.getD_eq_getElem _ 0 (by simpa using hi')]
      simp] at this
  have habsR : ∀ v ∈ mixRawRight tracks, |v| ≤ mixPeak tracks := by
    intro v hv
    obtain ⟨i, hi, rfl⟩ := List.mem_map.mp hv
    have hi' := List.mem_range.mp hi
    have := (abs_getD_le_mixPeak tracks i (by simpa using hi')).2
    rwa [show (mixRawRight tracks).getD i 0 = mixRawRightAt tracks i by
      unfold mixRawRight
      rw [List.getD_eq_getElem _ 0 (by simpa using hi')]
      simp] at this
  refine ⟨by simp [mixRawLeft, mixNumSamples],
    fun i => ⟨mixRawLeftAt_eq_sum tracks i, mixRawRightAt_eq_sum tracks i⟩,
    ?_⟩
  unfold mixTracks
  rw [if_neg h]
  by_cases hpk : 1 < mixPeak tracks
  · rw [if_pos hpk]
    refine ⟨_, rfl, by simp [mixRawLeft], by simp [mixRawRight], rfl,
      ?_, ?_, ?_, fun hle => absurd hpk (not_lt.mpr hle)⟩
    · intro v hv
      obtain ⟨u, hu, rfl⟩ := List.mem_map.mp hv
      have hu' := habs u hu
      have hpk0 : (0 : ℚ) < mixPeak tracks := by linarith
      rw [abs_mul, abs_of_pos (by positivity : (0 : ℚ) < 1 / mixPeak tracks)]
      calc |u| * (1 / mixPeak tracks)
          ≤ mixPeak tracks * (1 / mixPeak tracks) :=
            mul_le_mul_of_nonneg_right hu' (by positivity)
        _ = 1 := by field_simp
    · intro v hv
      obtain ⟨u, hu, rfl⟩ := List.mem_map.mp hv
      have hu' := habsR u hu
      have hpk0 : (0 : ℚ) < mixPeak tracks := by linarith
      rw [abs_mul, abs_of_pos (by positivity : (0 : ℚ) < 1 / mixPeak tracks)]
      calc |u| * (1 / mixPeak tracks)
          ≤ mixPeak tracks * (1 / mixPeak tracks) :=
            mul_le_mul_of_nonneg_right hu' (by positivity)
        _ = 1 := by field_simp
    · intro _ i hi
      constructor
      · rw [List.getD_eq_getElem _ 0
          (by simpa [mixRawLeft] using hi : i <
            ((mixRawLeft tracks).map (· * (1 / mixPeak tracks))).length)]
        simp [mixRawLeft, mul_one_div, div_eq_mul_inv]
      · rw [List.getD_eq_getElem _ 0
          (by simpa [mixRawRight] using hi : i <
            ((mixRawRight tracks).map (· * (1 / mixPeak tracks))).length)]
        simp [mixRawRight, mul_one_div, div_eq_mul_inv]
  · rw [if_neg hpk]
    have hle := not_lt.mp hpk
    exact ⟨_, rfl, by simp [mixRawLeft], by simp [mixRawRight], rfl,
      fun v hv => le_trans (habs v hv) hle,
      fun v hv => le_trans (habsR v hv) hle,
      fun hpk' => absurd hpk' hpk,
      fun _ => ⟨rfl, rfl⟩⟩

/-- A track whose accumulated mix peaks at 2: samples `2, -2` at 2 Hz,
opacity 1. -/
def loudTrack : AudioTrack := ⟨⟨[[2, -2]], 2⟩, 1⟩

/-- Witness for C6 at the one-track list `[loudTrack]`, whose mix peak is
`2 > 1`, so the proportional division branch is the one exercised. -/
theorem mixer_spec_witness :
    ([loudTrack] : List AudioTrack) ≠ [] ∧ 1 < mixPeak [loudTrack] ∧
    ∃ r : MixResult, mixTracks [loudTrack] = some r ∧
      (∀ i, i < mixNumSamples [loudTrack] →
        r.left.getD i 0 = mixRawLeftAt [loudTrack] i / mixPeak [loudTrack] ∧
        r.right.getD i 0 =
          mixRawRightAt [loudTrack] i / mixPeak [loudTrack]) ∧
      (∀ v ∈ r.left, |v| ≤ 1) ∧ (∀ v ∈ r.right, |v| ≤ 1) := by
  have hnum : mixNumSamples [loudTrack] = 2 := by
    simp only [mixNumSamples, engineDuration, AudioTrack.duration,
      AudioBuffer.duration, AudioBuffer.length, AudioBuffer.getChannelData,
      AudioTrack.sampleRate, loudTrack, List.headD]
    norm_num
    rfl
  have hleft : mixRawLeftAt [loudTrack] 0 = 2 := by
    simp [mixRawLeftAt, loudTrack, AudioBuffer.length,
      AudioBuffer.getChannelData, List.getD]
  have hlist : mixRawLeft [loudTrack] = [2, -2] := by
    unfold mixRawLeft
    rw [hnum]
    simp [mixRawLeftAt, loudTrack, AudioBuffer.length,
      AudioBuffer.getChannelData, List.range_succ, List.getD]
  have hlistR : mixRawRight [loudTrack] = [2, -2] := by
    unfold mixRawRight
    rw [hnum]
    simp [mixRawRightAt, rightChannelData, AudioTrack.numberOfChannels,
      AudioBuffer.numberOfChannels, loudTrack, AudioBuffer.length,
      AudioBuffer.getChannelData, List.range_succ, List.getD]
  have hpk : 1 < mixPeak [loudTrack] := by
    unfold mixPeak
    rw [hnum, hlist, hlistR]
    simp [List.range_succ, List.getD]
  have h := mixer_spec [loudTrack] (by simp)
  obtain ⟨-, -, r, hr1, -, -, -, hL, hR, hdiv, -⟩ := h
  exact ⟨by simp, hpk, r, hr1, fun i hi => hdiv hpk i hi, hL, hR⟩

/-! ### Claim C4: the recursive FFT computes the textbook DFT -/

theorem cexpI_add (a b : ℝ) : cexpI (a + b) = cexpI a * cexpI b := by
  unfold cexpI
  rw [← Complex.exp_add]
  congr 1
  push_cast
  ring

theorem cexpI_zero : cexpI 0 = 1 := by
  simp [cexpI]

theorem cexpI_int_two_pi (z : ℤ) : cexpI (-2 * Real.pi * z) = 1 := by
  unfold cexpI
  rw [show ((-2 * Real.pi * z : ℝ) : ℂ) * Complex.I =
    (-z : ℤ) * (2 * (Real.pi : ℂ) * Complex.I) by push_cast; ring]
  exact Complex.exp_int_mul_two_pi_mul_I (-z)

theorem cexpI_nat_two_pi (j : ℕ) : cexpI (-2 * Real.pi * j) = 1 := by
  have h := cexpI_int_two_pi (j : ℤ)
  push_cast at h
  exact h

theorem cexpI_neg_pi : cexpI (-Real.pi) = -1 := by
  unfold cexpI
  rw [show ((-Real.pi : ℝ) : ℂ) * Complex.I =
    -((Real.pi : ℂ) * Complex.I) by push_cast; ring]
  rw [Complex.exp_neg, Complex.exp_pi_mul_I]
  norm_num

/-- The twiddle factor is the unit-circle exponential of its angle. -/
theorem twiddle_eq (N k : ℕ) :
    twiddle N k = cexpI (-2 * Real.pi * k / N) := by
  unfold twiddle cexpI
  apply Complex.ext
  · exact (Complex.exp_ofReal_mul_I_re _).symm
  · exact (Complex.exp_ofReal_mul_I_im _).symm

theorem sum_range_two_mul (m : ℕ) (g : ℕ → ℂ) :
    ∑ j ∈ Finset.range (2 * m), g j =
      ∑ j ∈ Finset.range m, g (2 * j) +
        ∑ j ∈ Finset.range m, g (2 * j + 1) := by
  induction m with
  | zero => simp
  | succ m ih =>
    rw [show 2 * (m + 1) = 2 * m + 1 + 1 by ring, Finset.sum_range_succ,
      Finset.sum_range_succ, ih, Finset.sum_range_succ, Finset.sum_range_succ]
    ring

/-- One Cooley-Tukey butterfly level, valid for every output index `k`. -/
theorem dft_split (n : ℕ) (x : ℕ → ℂ) (k : ℕ) :
    dft (2 ^ (n + 1)) x k =
      dft (2 ^ n) (fun j => x (2 * j)) k +
        twiddle (2 ^ (n + 1)) k * dft (2 ^ n) (fun j => x (2 * j + 1)) k := by
  have h2n : ((2 : ℝ)) ^ n ≠ 0 := by positivity
  unfold dft
  rw [twiddle_eq, show (2 : ℕ) ^ (n + 1) = 2 * 2 ^ n from by ring,
    sum_range_two_mul]
  congr 1
  · apply Finset.sum_congr rfl
    intro j _
    congr 1
    apply congrArg cexpI
    push_cast
    field_simp
    ring
  · rw [Finset.mul_sum]
    apply Finset.sum_congr rfl
    intro j _
    rw [show (-2 * Real.pi * (k : ℝ) * ((2 * j + 1 : ℕ) : ℝ) /
        ((2 * 2 ^ n : ℕ) : ℝ)) =
      (-2 * Real.pi * (k : ℝ) / ((2 * 2 ^ n : ℕ) : ℝ)) +
        (-2 * Real.pi * (k : ℝ) * ((j : ℕ) : ℝ) / ((2 ^ n : ℕ) : ℝ)) from by
      push_cast
      field_simp
      ring]
    rw [cexpI_add]
    ring

/-- The DFT of size `N` is `N`-periodic in the bin index. -/
theorem dft_add_period (N : ℕ) (hN : N ≠ 0) (x : ℕ → ℂ) (k : ℕ) :
    dft N x (k + N) = dft N x k := by
  have hN' : ((N : ℝ)) ≠ 0 := by exact_mod_cast hN
  unfold dft
  apply Finset.sum_congr rfl
  intro j _
  congr 1
  rw [show (-2 * Real.pi * ((k + N : ℕ) : ℝ) * (j : ℝ) / (N : ℝ)) =
    (-2 * Real.pi * (k : ℝ) * (j : ℝ) / (N : ℝ)) +
      (-2 * Real.pi * (j : ℝ)) from by
    push_cast
    field_simp
    ring]
  rw [cexpI_add, cexpI_nat_two_pi, mul_one]

/-- Shifting the twiddle index by half the transform size negates it. -/
theorem twiddle_add_half (n k : ℕ) :
    twiddle (2 ^ (n + 1)) (k + 2 ^ n) = -twiddle (2 ^ (n + 1)) k := by
  have h2 : ((2 : ℝ)) ^ (n + 1) ≠ 0 := by positivity
  rw [twiddle_eq, twiddle_eq]
  rw [show (-2 * Real.pi * ((k + 2 ^ n : ℕ) : ℝ) / ((2 ^ (n + 1) : ℕ) : ℝ)) =
    (-2 * Real.pi * (k : ℝ) / ((2 ^ (n + 1) : ℕ) : ℝ)) + -Real.pi from by
    push_cast
    field_simp
    ring]
  rw [cexpI_add, cexpI_neg_pi]
  ring

/-- The source's recursive FFT computes the textbook DFT on every
power-of-two size, at every in-range bin. -/
theorem fftPow_eq_dft (n : ℕ) (f : ℕ → ℝ) (k : ℕ) (hk : k < 2 ^ n) :
    fftPow n f k = dft (2 ^ n) (fun j => ((f j : ℝ) : ℂ)) k := by
  induction n generalizing f k with
  | zero =>
    have hk0 : k = 0 := by omega
    subst hk0
    simp only [fftPow, dft, pow_zero, Finset.sum_range_one, if_pos]
    rw [show (-2 * Real.pi * ((0 : ℕ) : ℝ) * ((0 : ℕ) : ℝ) /
        ((1 : ℕ) : ℝ)) = 0 by push_cast; ring]
    rw [cexpI_zero, mul_one]
  | succ n ih =>
    simp only [fftPow]
    by_cases hk2 : k < 2 ^ n
    · rw [if_pos hk2, dft_split]
      rw [← ih (fun i => f (2 * i)) k hk2, ← ih (fun i => f (2 * i + 1)) k hk2]
    · rw [if_neg hk2]
      have hpow : (2 : ℕ) ^ (n + 1) = 2 * 2 ^ n := by ring
      have hk' : k - 2 ^ n < 2 ^ n := by omega
      have hksplit : k = (k - 2 ^ n) + 2 ^ n := by omega
      rw [hksplit, dft_split, dft_add_period (2 ^ n) (by positivity),
        dft_add_period (2 ^ n) (by positivity), twiddle_add_half]
      rw [← ih (fun i => f (2 * i)) (k - 2 ^ n) hk',
        ← ih (fun i => f (2 * i + 1)) (k - 2 ^ n) hk']
      simp only [Nat.add_sub_cancel]
      ring

/-- C4 (spectrum = reference definition): when the window holds at least
`fftSize = 2^m` samples, the spectrum extractor equals the spec's reference
pipeline — nearest-index resample, Hann window, textbook DFT, magnitudes
`sqrt(re² + im²)` on bins `[0, fftSize/2)` — and (for any input and any
parameters at all) every returned magnitude is nonnegative. -/
theorem spectrum_eq_dft_pipeline (t : AudioTrack)
    (currentTime windowDuration : ℚ) (m : ℕ)
    (hsz : ((2 ^ m : ℕ) : ℤ) ≤ windowEndSample t currentTime windowDuration -
      windowStartSample t currentTime windowDuration) :
    getFrequencySpectrumForTimeWindow t currentTime windowDuration (2 ^ m) =
      spectrumViaDFT t currentTime windowDuration (2 ^ m) ∧
    (∀ (ct wd : ℚ) (fftSize : ℕ),
      ∀ v ∈ getFrequencySpectrumForTimeWindow t ct wd fftSize, 0 ≤ v) := by
  constructor
  · have hlog : Nat.log2 (2 ^ m) = m := by
      rw [Nat.log2_eq_log_two]
      exact Nat.log_pow (by norm_num) m
    simp only [getFrequencySpectrumForTimeWindow, spectrumFromSamples,
      spectrumViaDFT]
    rw [if_neg (not_lt.mpr hsz), hlog]
    apply List.map_congr_left
    intro k hk
    have hkm : k < 2 ^ m := by
      have := List.mem_range.mp hk
      have hhalf : 2 ^ m / 2 ≤ 2 ^ m := Nat.div_le_self _ _
      omega
    rw [fftPow_eq_dft m _ k hkm]
  · intro ct wd fftSize v hv
    simp only [getFrequencySpectrumForTimeWindow, spectrumFromSamples] at hv
    split at hv
    · rw [List.eq_of_mem_replicate hv]
    · obtain ⟨k, -, rfl⟩ := List.mem_map.mp hv
      exact Real.sqrt_nonneg _

/-- Witness for C4 at `demoTrack` with `fftSize = 4 = 2²` (the one-second
window holds 5 ≥ 4 samples). -/
theorem spectrum_eq_dft_pipeline_witness :
    ((2 ^ 2 : ℕ) : ℤ) ≤ windowEndSample demoTrack 1 1 -
      windowStartSample demoTrack 1 1 ∧
    getFrequencySpectrumForTimeWindow demoTrack 1 1 (2 ^ 2) =
      spectrumViaDFT demoTrack 1 1 (2 ^ 2) := by
  have hsz : ((2 ^ 2 : ℕ) : ℤ) ≤ windowEndSample demoTrack 1 1 -
      windowStartSample demoTrack 1 1 := by
    rw [show demoTrack = ⟨⟨[[0, 1, 0, 0, 1]], 5⟩, 7 / 10⟩ from rfl,
      windowStartSample_unit, windowEndSample_unit _ _ (by norm_num)]
    norm_num
  exact ⟨hsz, (spectrum_eq_dft_pipeline demoTrack 1 1 2 hsz).1⟩

end MAV
